import Mathlib

/-!
Verification of the BlockForge filter-rule compiler and dynamic rule-set
manager (src/background/modules/filter-engine.js: `FilterEngine` and
`RuleManager`).

JS strings are modelled as `List Char`; JS objects become structures or
inductive sum types; the `chrome.*` host APIs are external collaborators, so
functions that only wrap them (storage, fetch, the declarativeNetRequest
backend) are modelled by explicit parameters or by pure result values.
Every definition is translated from the source file; the regex-matching
semantics of the external backend (which the source delegates to) is the
only spec-modelled component and is marked as such.
-/

namespace BlockForge

/-- Whitespace characters as JS `\s` / `trim` treat them (the ones that can
occur in this code base's inputs): space, tab, newline, carriage return,
vertical tab, form feed. -/
def isJsWs (c : Char) : Bool :=
  c = ' ' || c = '\t' || c = '\n' || c = '\r' || c = Char.ofNat 11 || c = Char.ofNat 12

/-- JS `String.prototype.trim()` on the character-list model of JS strings. -/
def jsTrim (s : List Char) : List Char :=
  ((s.dropWhile isJsWs).reverse.dropWhile isJsWs).reverse

/-- The character class escaped by `escapeRegex` and by the first step of
`ruleToRegex`: `/[.+?^$\x7b\x7d()|[\]\\]/g`. -/
def isEscChar (c : Char) : Bool :=
  c = '.' || c = '+' || c = '?' || c = '^' || c = '$' || c = Char.ofNat 123 ||
  c = Char.ofNat 125 || c = '(' || c = ')' || c = '|' || c = '[' || c = ']' || c = '\\'

/-- `FilterEngine.escapeRegex(str)`: `str.replace(/[...]/g, '\\$&')` — each
special character is prefixed with a backslash. -/
def escapeRegex (s : List Char) : List Char :=
  s.flatMap (fun c => if isEscChar c then ['\\', c] else [c])

/-- JS `s.replace(/c/g, repl)` for a single character `c`: every occurrence is
replaced, the replacement text is not rescanned. -/
def replaceChar (c : Char) (repl : List Char) (s : List Char) : List Char :=
  s.flatMap (fun x => if x = c then repl else [x])

/-- JS `s.replace(/^pre/, repl)`: replace the prefix `pre` once, if present. -/
def replacePre (pre repl s : List Char) : List Char :=
  if pre.isPrefixOf s then repl ++ s.drop pre.length else s

/-- JS `s.replace(/suf$/, repl)`: replace the suffix `suf` once, if present. -/
def replaceSuf (suf repl s : List Char) : List Char :=
  if suf.isSuffixOf s then s.take (s.length - suf.length) ++ repl else s

/-- `FilterEngine.ruleToRegex(pattern)`, step for step:
a `/…/`-wrapped pattern is passed through with the delimiters stripped;
otherwise the code escapes regex metacharacters first, then rewrites
`*` to `.*`, then the separator `^` to `([^a-zA-Z0-9_.%-]|$)`, then the
(already escaped) leading `\|\|` to `^https?://([a-z0-9-]+\.)*`, then a
leading `\|` to `^` and a trailing `\|` to `$`. -/
def ruleToRegex (pattern : List Char) : List Char :=
  if ['/'].isPrefixOf pattern && ['/'].isSuffixOf pattern then
    (pattern.drop 1).dropLast
  else
    replaceSuf ['\\', '|'] ['$']
      (replacePre ['\\', '|'] ['^']
        (replacePre ['\\', '|', '\\', '|'] ("^https?://([a-z0-9-]+\\.)*".toList)
          (replaceChar '^' ("([^a-zA-Z0-9_.%-]|$)".toList)
            (replaceChar '*' (".*".toList)
              (escapeRegex pattern)))))

/-- Options parsed from a network rule's `$options` clause
(`FilterEngine.parseRuleOptions`). Absent JS object fields are modelled as
`none` (for the two list-valued fields) or `false` (for the flags, which the
compiler only ever tests for truthiness). -/
structure RuleOptions where
  domains : Option (List (List Char)) := none
  thirdParty : Bool := false
  firstParty : Bool := false
  resourceTypes : Option (List (List Char)) := none
  important : Bool := false
deriving DecidableEq

/-- The string-tagged plain objects the parser returns, as a sum type:
`element-hide`, `element-exception`, `scriptlet`, `network-block`,
`network-exception`. Hosts-file rules carry no `options` field in JS; they
are modelled with the default (all-absent) `RuleOptions`, which the
compiler's `rule.options?.x` accesses treat identically. -/
inductive ParsedRule
  | elementHide (domains : List (List Char)) (selector : List Char)
  | elementException (domains : List (List Char)) (selector : List Char)
  | scriptlet (domains : List (List Char)) (script : List Char)
  | networkBlock (pattern : List Char) (originalRule : List Char) (options : RuleOptions)
  | networkException (pattern : List Char) (originalRule : List Char) (options : RuleOptions)
deriving DecidableEq

/-- JS `s.includes(sub)`: `sub` occurs contiguously somewhere in `s`. -/
def containsSeq (sub s : List Char) : Bool :=
  (List.range (s.length + 1)).any (fun i => sub.isPrefixOf (s.drop i))

/-- JS `s.split(sep)` for a one-character separator: separators are removed,
empty pieces are kept (`''.split(c)` is `['']`). -/
def jsSplit (sep : Char) : List Char → List (List Char)
  | [] => [[]]
  | c :: rest =>
    if c = sep then [] :: jsSplit sep rest
    else
      match jsSplit sep rest with
      | [] => [[c]]
      | p :: ps => (c :: p) :: ps

/-- JS match against `/^(.+?)sep(.+)$/` (no newlines in the line): the
shortest non-empty prefix followed by `sep` and a non-empty remainder,
`none` when no such split exists. -/
def lazySplit (sep : List Char) : List Char → Option (List Char × List Char)
  | [] => none
  | c :: rest =>
    if sep.isPrefixOf rest && !(rest.drop sep.length).isEmpty then
      some ([c], rest.drop sep.length)
    else
      match lazySplit sep rest with
      | some (pre, suf) => some (c :: pre, suf)
      | none => none

/-- The left side of an element-hiding or scriptlet separator:
`split(',').filter(d => d)`. -/
def splitDomainList (pre : List Char) : List (List Char) :=
  (jsSplit ',' pre).filter (fun d => !d.isEmpty)

/-- `FilterEngine.parseElementHidingRule(rule)`: the `#@#` exception form is
tried first, then `a##b`, then a bare leading `##` (global rule); anything
else yields `null`. -/
def parseElementHidingRule (rule : List Char) : Option ParsedRule :=
  match lazySplit "#@#".toList rule with
  | some (pre, suf) => some (.elementException (splitDomainList pre) suf)
  | none =>
    match lazySplit "##".toList rule with
    | some (pre, suf) => some (.elementHide (splitDomainList pre) suf)
    | none =>
      if "##".toList.isPrefixOf rule then some (.elementHide [] (rule.drop 2))
      else none

/-- `FilterEngine.parseScriptletRule(rule)`. -/
def parseScriptletRule (rule : List Char) : Option ParsedRule :=
  match lazySplit "#%#".toList rule with
  | some (pre, suf) => some (.scriptlet (splitDomainList pre) suf)
  | none => none

/-- Append one resource type to the accumulator
(`options.resourceTypes = options.resourceTypes || []; ...push(t)`). -/
def pushResourceType (o : RuleOptions) (t : List Char) : RuleOptions :=
  { o with resourceTypes := some (o.resourceTypes.getD [] ++ [t]) }

/-- One iteration of the `parseRuleOptions` switch. `part.split('=')`
destructures to the first two components; unknown keys are ignored. -/
def applyOption (o : RuleOptions) (part : List Char) : RuleOptions :=
  let comps := jsSplit '=' part
  let key := comps.headD []
  let value := comps[1]?
  if key = "domain".toList then
    { o with domains := some (match value with
        | some v => if v.isEmpty then [] else jsSplit '|' v
        | none => []) }
  else if key = "third-party".toList || key = "3p".toList then
    { o with thirdParty := true }
  else if key = "~third-party".toList || key = "1p".toList then
    { o with firstParty := true }
  else if key = "script".toList then pushResourceType o "script".toList
  else if key = "image".toList then pushResourceType o "image".toList
  else if key = "stylesheet".toList || key = "css".toList then
    pushResourceType o "stylesheet".toList
  else if key = "xmlhttprequest".toList || key = "xhr".toList then
    pushResourceType o "xmlhttprequest".toList
  else if key = "subdocument".toList || key = "frame".toList then
    pushResourceType o "sub_frame".toList
  else if key = "important".toList then { o with important := true }
  else o

/-- `FilterEngine.parseRuleOptions(optionString)`. -/
def parseRuleOptions (optionString : List Char) : RuleOptions :=
  (jsSplit ',' optionString).foldl applyOption {}

/-- `FilterEngine.parseNetworkRule(rule)`: strip a leading `@@` (exception),
split off a `$options` clause (`/^(.+?)\$(.+)$/`), translate the remaining
pattern. Always returns a rule record, never `null`. -/
def parseNetworkRule (rule : List Char) : ParsedRule :=
  let isException := "@@".toList.isPrefixOf rule
  let ruleText := if isException then rule.drop 2 else rule
  let split := lazySplit ['$'] ruleText
  let body := match split with | some (pre, _) => pre | none => ruleText
  let options := match split with | some (_, suf) => parseRuleOptions suf | none => {}
  if isException then .networkException (ruleToRegex body) rule options
  else .networkBlock (ruleToRegex body) rule options

/-- `FilterEngine.parseAdblockRule(rule)`. -/
def parseAdblockRule (rule : List Char) : Option ParsedRule :=
  if containsSeq "##".toList rule || containsSeq "#@#".toList rule then
    parseElementHidingRule rule
  else if containsSeq "#%#".toList rule || containsSeq "#@%#".toList rule then
    parseScriptletRule rule
  else
    some (parseNetworkRule rule)

/-- One iteration of the `parseAdblockList` loop: `none` when the line is
skipped (blank, `!` comment, `[` metadata) or cannot be classified. -/
def adblockLineRule (line : List Char) : Option ParsedRule :=
  let trimmed := jsTrim line
  if trimmed.isEmpty || ['!'].isPrefixOf trimmed || ['['].isPrefixOf trimmed then none
  else parseAdblockRule trimmed

/-- The `parseAdblockList` loop over the already-split lines. -/
def parseAdblockLines (lines : List (List Char)) : List ParsedRule :=
  lines.filterMap adblockLineRule

/-- `FilterEngine.parseAdblockList(text)`. -/
def parseAdblockList (text : List Char) : List ParsedRule :=
  parseAdblockLines (jsSplit '\n' text)

/-- The capture of `/^(?:0\.0\.0\.0|127\.0\.0\.1)\s+(.+)$/` for one IP
alternative: after the literal IP there must be at least one whitespace
character; the capture is the remainder after the greedy whitespace run,
except that when that remainder is empty the regex backtracks one
whitespace character into the capture (that capture trims to empty and is
dropped by the caller either way). -/
def hostsCapture (ip : List Char) (s : List Char) : Option (List Char) :=
  if ip.isPrefixOf s then
    match s.drop ip.length with
    | [] => none
    | c :: rest =>
      if isJsWs c then
        let afterWs := (c :: rest).dropWhile isJsWs
        if afterWs.isEmpty then
          if rest.isEmpty then none else some [rest.getLastD c]
        else some afterWs
      else none
  else none

/-- The pattern template of a hosts-file rule:
`^https?://([a-z0-9-]+\\.)*${this.escapeRegex(domain)}(/|$)`. -/
def hostsPatternFor (domain : List Char) : List Char :=
  "^https?://([a-z0-9-]+\\.)*".toList ++ escapeRegex domain ++ "(/|$)".toList

/-- Both alternatives of the hosts-entry regex, left to right. -/
def hostsLineMatch (s : List Char) : Option (List Char) :=
  match hostsCapture "0.0.0.0".toList s with
  | some cap => some cap
  | none => hostsCapture "127.0.0.1".toList s

/-- One iteration of the `parseHostsFile` loop: skip blank and `#`-comment
lines; on a hosts entry, strip an inline `#comment` suffix
(`match[1].split('#')[0].trim()`), discard empty results and the literal
token `localhost`, and anchor the rule to the domain and its subdomains. -/
def hostsLineRule (line : List Char) : Option ParsedRule :=
  let trimmed := jsTrim line
  if trimmed.isEmpty || ['#'].isPrefixOf trimmed then none
  else
    match hostsLineMatch trimmed with
    | none => none
    | some cap =>
      let domain := jsTrim ((jsSplit '#' cap).headD [])
      if domain ≠ [] ∧ domain ≠ "localhost".toList then
        some (.networkBlock (hostsPatternFor domain) trimmed {})
      else none

/-- The `parseHostsFile` loop over the already-split lines. -/
def parseHostsLines (lines : List (List Char)) : List ParsedRule :=
  lines.filterMap hostsLineRule

/-- `FilterEngine.parseHostsFile(text)`. -/
def parseHostsFile (text : List Char) : List ParsedRule :=
  parseHostsLines (jsSplit '\n' text)

/-- `FilterEngine.parseFilterList(text, format)`. -/
def parseFilterList (text format : List Char) : List ParsedRule :=
  if format = "hosts".toList then parseHostsFile text else parseAdblockList text

inductive ActionType
  | block
  | allow
deriving DecidableEq

inductive DomainType
  | thirdParty
  | firstParty
deriving DecidableEq

/-- A declarativeNetRequest rule condition; absent JS fields are `none`. -/
structure RuleCondition where
  regexFilter : Option (List Char) := none
  urlFilter : Option (List Char) := none
  resourceTypes : Option (List (List Char)) := none
  initiatorDomains : Option (List (List Char)) := none
  excludedInitiatorDomains : Option (List (List Char)) := none
  requestDomains : Option (List (List Char)) := none
  domainType : Option DomainType := none
deriving DecidableEq

/-- A compiled declarativeNetRequest rule. -/
structure DNRRule where
  id : Nat
  priority : Nat
  action : ActionType
  condition : RuleCondition
deriving DecidableEq

/-- The resource-type default of `FilterEngine.compileToDNR`. -/
def listDefaultResourceTypes : List (List Char) :=
  ["script".toList, "image".toList, "stylesheet".toList, "sub_frame".toList,
   "xmlhttprequest".toList, "media".toList, "font".toList, "other".toList]

/-- `FilterEngine.compileToDNR(rule, id)` on the rule's pattern and options
(only `network-block` rules reach it). The JS `try/catch` can return `null`
only on a thrown exception and nothing in the body can throw, so the result
is always `some`; priority is the constant 1. -/
def compileToDNR (pattern : List Char) (options : RuleOptions) (id : Nat) :
    Option DNRRule :=
  let base : RuleCondition :=
    { regexFilter := some pattern,
      resourceTypes := some (options.resourceTypes.getD listDefaultResourceTypes) }
  let withDomains :=
    match options.domains with
    | none => base
    | some ds =>
      let includeDomains := ds.filter (fun d => !(['~'].isPrefixOf d))
      let excludeDomains := (ds.filter (fun d => ['~'].isPrefixOf d)).map (fun d => d.drop 1)
      { base with
        initiatorDomains := if includeDomains.isEmpty then none else some includeDomains,
        excludedInitiatorDomains := if excludeDomains.isEmpty then none else some excludeDomains }
  let cond :=
    if options.thirdParty then { withDomains with domainType := some .thirdParty }
    else if options.firstParty then { withDomains with domainType := some .firstParty }
    else withDomains
  some { id := id, priority := 1, action := .block, condition := cond }

/-- A user-authored custom rule (`type` is the JS string tag `'block'` or
`'allow'`; `id`/`createdAt` are the timestamp metadata set by
`addCustomRule`, never read during compilation). -/
structure CustomRule where
  id : Nat := 0
  type : List Char
  pattern : List Char
  resourceTypes : Option (List (List Char)) := none
  createdAt : Nat := 0
deriving DecidableEq

/-- The resource-type default of the custom `block` branch. -/
def customDefaultResourceTypes : List (List Char) :=
  ["main_frame".toList, "sub_frame".toList, "script".toList, "image".toList,
   "stylesheet".toList, "xmlhttprequest".toList]

/-- `FilterEngine.compileCustomToDNR(rule, id)`: custom block rules get
priority 2, custom allow rules priority 3, anything else compiles to
nothing. -/
def compileCustomToDNR (rule : CustomRule) (id : Nat) : Option DNRRule :=
  if rule.type = "block".toList then
    some { id := id, priority := 2, action := .block,
           condition := { urlFilter := some rule.pattern,
                          resourceTypes :=
                            some (rule.resourceTypes.getD customDefaultResourceTypes) } }
  else if rule.type = "allow".toList then
    some { id := id, priority := 3, action := .allow,
           condition := { urlFilter := some rule.pattern } }
  else none

/-- One cached filter list as `compileRules` reads it: its category and its
parsed rules (the cached metadata fields `id`, `name`, `rulesCount`,
`lastUpdated` are never read by the compiler and are omitted). The
category is the configured source's `category` property, which JS leaves
`undefined` (`none`) when the update ran against an inherited
`Object.prototype` member instead of a configured source. -/
structure FilterListData where
  category : Option (List Char)
  rules : List ParsedRule
deriving DecidableEq

/-- The mutable locals of `compileRules`: the `ruleId` counter (started at
100000 "to avoid conflicts with static rules") and the batch built so far. -/
structure CompState where
  ruleId : Nat
  rules : List DNRRule
deriving DecidableEq

/-- The inner `compileRules` loop over one list's rules: only
`network-block` rules are compiled; `ruleId++` advances on every compile
attempt, and a compiled rule is appended to the batch. -/
def compileListRules : CompState → List ParsedRule → CompState
  | st, [] => st
  | st, r :: rs =>
    match r with
    | .networkBlock pattern _ options =>
      let st' := match compileToDNR pattern options st.ruleId with
        | some d => CompState.mk (st.ruleId + 1) (st.rules ++ [d])
        | none => CompState.mk (st.ruleId + 1) st.rules
      compileListRules st' rs
    | _ => compileListRules st rs

/-- The outer `compileRules` loop: after each whole list, stop if the batch
has reached 30000 rules (the check sits between lists, not inside the
per-rule loop). -/
def compileAllLists : CompState → List FilterListData → CompState
  | st, [] => st
  | st, l :: ls =>
    let st' := compileListRules st l.rules
    if 30000 ≤ st'.rules.length then st' else compileAllLists st' ls

/-- The custom-rule loop of `compileRules`, after the list loop and not
subject to the 30000 check. -/
def compileCustomRules : CompState → List CustomRule → CompState
  | st, [] => st
  | st, c :: cs =>
    let st' := match compileCustomToDNR c st.ruleId with
      | some d => CompState.mk (st.ruleId + 1) (st.rules ++ [d])
      | none => CompState.mk (st.ruleId + 1) st.rules
    compileCustomRules st' cs

/-- `FilterEngine.compileRules()` as a function of the engine's filter lists
(`Map` values in insertion order; a cached entry always carries a rules
array) and its custom rules. The final `updateDynamicRules` call hands the
batch to the external backend and is outside this model. -/
def compileRules (filterLists : List FilterListData)
    (customRules : List CustomRule) : List DNRRule :=
  (compileCustomRules (compileAllLists ⟨100000, []⟩ filterLists) customRules).rules

/-- One `RuleManager.ruleRanges` band; the JS field `end` (exclusive per the
`id < end` uses) is named `stop` here, `end` being a Lean keyword. -/
structure RuleIdRange where
  start : Nat
  stop : Nat
deriving DecidableEq

/-- `RuleManager.ruleRanges`. -/
def ruleRanges : List (List Char × RuleIdRange) :=
  [("ads".toList, ⟨1, 9999⟩),
   ("trackers".toList, ⟨10000, 19999⟩),
   ("social".toList, ⟨20000, 29999⟩),
   ("cryptominers".toList, ⟨30000, 39999⟩),
   ("malware".toList, ⟨40000, 49999⟩),
   ("whitelist".toList, ⟨50000, 59999⟩),
   ("blacklist".toList, ⟨60000, 69999⟩),
   ("custom".toList, ⟨100000, 199999⟩)]

/-- Look a category's band up in `ruleRanges`. -/
def findRange : List (List Char × RuleIdRange) → List Char → Option RuleIdRange
  | [], _ => none
  | p :: ps, c => if p.1 = c then some p.2 else findRange ps c

/-- Membership of an id in a band, as `applyWhitelistRules` and
`applyBlacklistRules` filter: `start ≤ id ∧ id < end`. -/
def inRange (r : RuleIdRange) (id : Nat) : Prop :=
  r.start ≤ id ∧ id < r.stop

instance (r : RuleIdRange) (id : Nat) : Decidable (inRange r id) :=
  inferInstanceAs (Decidable (And _ _))

/-- The resource-type list of the whitelist/blacklist rule constructors. -/
def managerResourceTypes : List (List Char) :=
  ["main_frame".toList, "sub_frame".toList, "script".toList, "image".toList,
   "stylesheet".toList, "xmlhttprequest".toList, "media".toList, "font".toList,
   "other".toList]

/-- The rule-construction loop of `RuleManager.applyWhitelistRules`: per
whitelisted domain an initiator-scoped and a request-scoped allow rule,
both priority 10, ids counted up from the whitelist band's floor. -/
def whitelistRulesAux : Nat → List (List Char) → List DNRRule
  | _, [] => []
  | ruleId, d :: ds =>
    { id := ruleId, priority := 10, action := .allow,
      condition := { initiatorDomains := some [d],
                     resourceTypes := some managerResourceTypes } } ::
    { id := ruleId + 1, priority := 10, action := .allow,
      condition := { requestDomains := some [d],
                     resourceTypes := some managerResourceTypes } } ::
    whitelistRulesAux (ruleId + 2) ds

/-- The whitelist allow rules built from the manager's whitelist set. -/
def whitelistRulesFor (whitelist : List (List Char)) : List DNRRule :=
  whitelistRulesAux 50000 whitelist

/-- The rule-construction loop of `RuleManager.applyBlacklistRules`: one
priority-5 block rule per blacklisted domain, ids from the blacklist
band's floor. -/
def blacklistRulesAux : Nat → List (List Char) → List DNRRule
  | _, [] => []
  | ruleId, d :: ds =>
    { id := ruleId, priority := 5, action := .block,
      condition := { requestDomains := some [d],
                     resourceTypes := some managerResourceTypes } } ::
    blacklistRulesAux (ruleId + 1) ds

/-- The blacklist block rules built from the manager's blacklist set. -/
def blacklistRulesFor (blacklist : List (List Char)) : List DNRRule :=
  blacklistRulesAux 60000 blacklist

/-- Modelled from the spec: the rule-matching backend's
highest-priority-wins conflict resolution (the source delegates matching to
`chrome.declarativeNetRequest`, which is not in the repository). Among the
rules matching a request, a rule of maximal priority wins (the earliest such
on ties) and its action is the resolved action. -/
def bestRule : List DNRRule → Option DNRRule
  | [] => none
  | r :: rs =>
    match bestRule rs with
    | none => some r
    | some b => if r.priority < b.priority then some b else some r

/-- Modelled from the spec: the resolved action for a set of matching rules
under highest-priority-wins backend semantics. -/
def resolveAction (matched : List DNRRule) : Option ActionType :=
  (bestRule matched).map (fun r => r.action)

/-- `domain === entry || domain.endsWith('.' + entry)`: equality or
subdomain suffix on a dot boundary. -/
def domainMatches (domain entry : List Char) : Bool :=
  domain = entry || ('.' :: entry).isSuffixOf domain

/-- One iteration of the `ruleApplies` loop, on the state
(applies, excluded). -/
def scanStep (domain : List Char) (st : Bool × Bool) (ruleDomain : List Char) :
    Bool × Bool :=
  if ['~'].isPrefixOf ruleDomain then
    if domainMatches domain (ruleDomain.drop 1) then (st.1, true) else st
  else
    if domainMatches domain ruleDomain then (true, st.2) else st

/-- `FilterEngine.ruleApplies(rule, domain)` on the rule's `domains` list:
an empty list applies globally; otherwise includes and `~`-excludes are
scanned, a rule whose entries are all exclusions applies by default, and a
matching exclusion always defeats the rule. -/
def ruleApplies (domains : List (List Char)) (domain : List Char) : Bool :=
  if domains.isEmpty then true
  else
    let st := domains.foldl (scanStep domain) (false, false)
    let app := if !st.1 && domains.all (fun d => ['~'].isPrefixOf d) then true else st.1
    app && !st.2

/-- The spec's Domain Matcher interface
`applies(rule_includes, rule_excludes, domain)`: in the source both lists
travel in the one `domains` array with exclusions `~`-prefixed, so the
interface is `ruleApplies` on that combined list. -/
def applies (includes excludes : List (List Char)) (domain : List Char) : Bool :=
  ruleApplies (includes ++ excludes.map (fun e => '~' :: e)) domain

/-- The accumulator step of `dedupFirst`. -/
def dedupAux (seen : List (List Char)) : List (List Char) → List (List Char)
  | [] => []
  | x :: xs => if x ∈ seen then dedupAux seen xs else x :: dedupAux (x :: seen) xs

/-- JS `[...new Set(rules)]`: duplicates removed, first occurrences kept in
order. -/
def dedupFirst (l : List (List Char)) : List (List Char) :=
  dedupAux [] l

/-- The inner test of `getElementHidingRules`: an `element-hide` rule whose
domain list applies to the domain yields its selector. -/
def selectorYield (domain : List Char) (r : ParsedRule) : Option (List Char) :=
  match r with
  | .elementHide doms sel => if ruleApplies doms domain then some sel else none
  | _ => none

/-- The collection loop of `getElementHidingRules` over all cached lists. -/
def collectSelectors (filterLists : List FilterListData) (domain : List Char) :
    List (List Char) :=
  filterLists.flatMap (fun fl => fl.rules.filterMap (selectorYield domain))

/-- `FilterEngine.getElementHidingRules(domain)` as a function of the cached
filter lists. -/
def getElementHidingRules (filterLists : List FilterListData) (domain : List Char) :
    List (List Char) :=
  dedupFirst (collectSelectors filterLists domain)

/-- Test for the `element-exception` records parsed from `#@#` lines. -/
def isElementException : ParsedRule → Bool
  | .elementException _ _ => true
  | _ => false

/-- A copy of a cached list with its `element-exception` records removed
(used to state that `getElementHidingRules` never consults them). -/
def dropElementExceptions (fl : FilterListData) : FilterListData :=
  { fl with rules := fl.rules.filter (fun r => !isElementException r) }

/-- One configured filter-list source (`FilterEngine.sources[id]`). -/
structure SourceCfg where
  name : List Char
  url : List Char
  enabled : Bool
  category : List Char
  format : Option (List Char) := none
deriving DecidableEq

/-- The `FilterEngine` fields `toggleFilterList` can reach: the configured
sources and the `filterLists` map as association lists in insertion order,
the custom rules and the compiled batch. -/
structure EngineState where
  sources : List (List Char × SourceCfg)
  filterLists : List (List Char × FilterListData)
  customRules : List CustomRule
  compiledRules : List DNRRule
deriving DecidableEq

/-- The own-key part of the JS property lookup `this.sources[id]` (the
prototype chain is handled by `sourceProp`). -/
def findSource : List (List Char × SourceCfg) → List Char → Option SourceCfg
  | [], _ => none
  | p :: ps, id => if p.1 = id then some p.2 else findSource ps id

/-- The property names every plain object inherits from `Object.prototype`
(function-valued members, plus the object-valued `__proto__` accessor —
all truthy). A JS property access `this.sources[id]` that misses every own
key still finds these. -/
def protoNames : List (List Char) :=
  ["constructor".toList, "hasOwnProperty".toList, "isPrototypeOf".toList,
   "propertyIsEnumerable".toList, "toLocaleString".toList, "toString".toList,
   "valueOf".toList, "__defineGetter__".toList, "__defineSetter__".toList,
   "__lookupGetter__".toList, "__lookupSetter__".toList, "__proto__".toList]

/-- What the JS property access `this.sources[id]` yields: the configured
source under an own key, a truthy member inherited from
`Object.prototype`, or `undefined` (falsy). -/
inductive SourceProp
  | own (cfg : SourceCfg)
  | inherited
  | undef
deriving DecidableEq

/-- The full JS property lookup `this.sources[id]`, prototype chain
included: an own key wins; otherwise the inherited `Object.prototype`
members are still found, and they are truthy. -/
def sourceProp (sources : List (List Char × SourceCfg)) (id : List Char) :
    SourceProp :=
  match findSource sources id with
  | some cfg => SourceProp.own cfg
  | none =>
    if protoNames.any (fun n => decide (n = id)) then SourceProp.inherited
    else SourceProp.undef

/-- `this.sources[id].enabled = enabled`. -/
def setSourceEnabled (sources : List (List Char × SourceCfg)) (id : List Char)
    (enabled : Bool) : List (List Char × SourceCfg) :=
  sources.map (fun p => if p.1 = id then (p.1, { p.2 with enabled := enabled }) else p)

/-- JS `Map.prototype.set`: replace in place when the key exists, append
otherwise. -/
def mapSet (m : List (List Char × FilterListData)) (k : List Char)
    (v : FilterListData) : List (List Char × FilterListData) :=
  if m.any (fun p => decide (p.1 = k)) then
    m.map (fun p => if p.1 = k then (p.1, v) else p)
  else m ++ [(k, v)]

/-- `FilterEngine.updateFilterList(id)` with the network modelled by the
`fetched` parameter: `none` is a failed fetch (caught, logged, no state
change); on success the text is parsed per the source's format and cached
(the storage write is external). The `!source` early return fires only
when the property access yields `undefined`: an id hitting an inherited
`Object.prototype` member passes the guard, and since that member's
`url`, `format` and `category` properties are all `undefined`, the format
defaults to `adblock` and the cached entry's category is `undefined`
(`none`). -/
def updateFilterList (fetched : Option (List Char)) (st : EngineState)
    (id : List Char) : EngineState :=
  match sourceProp st.sources id with
  | SourceProp.undef => st
  | SourceProp.own source =>
    match fetched with
    | none => st
    | some text =>
      let rules := parseFilterList text (source.format.getD "adblock".toList)
      { st with
          filterLists := mapSet st.filterLists id ⟨some source.category, rules⟩ }
  | SourceProp.inherited =>
    match fetched with
    | none => st
    | some text =>
      let rules := parseFilterList text "adblock".toList
      { st with filterLists := mapSet st.filterLists id ⟨none, rules⟩ }

/-- `FilterEngine.toggleFilterList(id, enabled)`; the returned flag records
whether `compileRules` ran. The guard is the truthiness of
`this.sources[id]`, which also finds the members every plain object
inherits from `Object.prototype`: only an id hitting neither an own key
nor an inherited member falls through the whole body. In the inherited
case the write `this.sources[id].enabled = enabled` lands on the shared
prototype member, outside the engine's own fields, so `sources` itself is
unchanged — but `updateFilterList` still runs when due and `compileRules`
always does. -/
def toggleFilterList (fetched : Option (List Char)) (st : EngineState)
    (id : List Char) (enabled : Bool) : EngineState × Bool :=
  match sourceProp st.sources id with
  | SourceProp.undef => (st, false)
  | SourceProp.own _ =>
    let st1 := { st with sources := setSourceEnabled st.sources id enabled }
    let st2 :=
      if enabled && !(st1.filterLists.any (fun p => decide (p.1 = id))) then
        updateFilterList fetched st1 id
      else st1
    ({ st2 with
        compiledRules := compileRules (st2.filterLists.map Prod.snd) st2.customRules },
      true)
  | SourceProp.inherited =>
    let st2 :=
      if enabled && !(st.filterLists.any (fun p => decide (p.1 = id))) then
        updateFilterList fetched st id
      else st
    ({ st2 with
        compiledRules := compileRules (st2.filterLists.map Prod.snd) st2.customRules },
      true)

/-- A compiled list-sourced block rule, as `compileToDNR` emits it for the
pattern `p` at id 100000 (used to state concrete instances). -/
def sampleListDNR : DNRRule :=
  { id := 100000, priority := 1, action := .block,
    condition := { regexFilter := some "p".toList,
                   resourceTypes := some listDefaultResourceTypes } }

/-- A compiled custom allow rule, as `compileCustomToDNR` emits it for the
pattern `q` at id 100001. -/
def sampleAllowDNR : DNRRule :=
  { id := 100001, priority := 3, action := .allow,
    condition := { urlFilter := some "q".toList } }

/-- A one-source engine state (used to state concrete instances). -/
def sampleEngineState : EngineState :=
  { sources := [("easylist".toList,
      { name := "EasyList".toList, url := "https://e".toList,
        enabled := true, category := "ads".toList })],
    filterLists := [], customRules := [], compiledRules := [] }

/-- The one-source engine state carrying a compiled batch (used to state
concrete instances where a recompilation visibly clobbers it). -/
def sampleEngineStateLoaded : EngineState :=
  { sampleEngineState with compiledRules := [sampleListDNR] }

/-- Modelled from the spec: the abstract syntax of the backend
rule-matching engine's regex dialect, as far as the compiled patterns use
it. The source delegates all matching to `chrome.declarativeNetRequest`
(`regexFilter`), which is not part of the repository. -/
inductive Rx
  | emp
  | chr (c : Char)
  | cls (neg : Bool) (ranges : List (Char × Char))
  | endAnchor
  | seq (a b : Rx)
  | alt (a b : Rx)
  | star (a : Rx)
  | plus (a : Rx)
  | opt (a : Rx)
  | grp (a : Rx)
deriving DecidableEq

/-- Character-class membership. -/
def inClass (c : Char) : List (Char × Char) → Bool
  | [] => false
  | (a, b) :: rs => (a ≤ c && c ≤ b) || inClass c rs

/-- Modelled from the spec: a fuel-bounded backtracking matcher giving the
backend dialect its standard semantics in continuation-passing style.
`mrx fuel r s k` holds when `r` matches a prefix of `s` and `k` accepts the
remainder; the fuel bounds recursion depth only (each recursive step spends
one unit except continuation calls, and the `star` case demands strict
progress), and `accepts` below always supplies enough of it. -/
def mrx : Nat → Rx → List Char → (List Char → Bool) → Bool
  | 0, _, _, _ => false
  | _ + 1, .emp, s, k => k s
  | _ + 1, .chr c, s, k =>
    match s with
    | [] => false
    | x :: xs => decide (x = c) && k xs
  | _ + 1, .cls neg rs, s, k =>
    match s with
    | [] => false
    | x :: xs => (inClass x rs != neg) && k xs
  | _ + 1, .endAnchor, s, k => s.isEmpty && k s
  | fuel + 1, .seq a b, s, k => mrx fuel a s (fun t => mrx fuel b t k)
  | fuel + 1, .alt a b, s, k => mrx fuel a s k || mrx fuel b s k
  | fuel + 1, .star a, s, k =>
    k s || mrx fuel a s (fun t => decide (t.length < s.length) && mrx fuel (.star a) t k)
  | fuel + 1, .plus a, s, k => mrx fuel a s (fun t => mrx fuel (.star a) t k)
  | fuel + 1, .opt a, s, k => mrx fuel a s k || k s
  | fuel + 1, .grp a, s, k => mrx fuel a s k

/-- Structural size of a regex, used to provision fuel. -/
def rxSize : Rx → Nat
  | .emp => 1
  | .chr _ => 1
  | .cls _ _ => 1
  | .endAnchor => 1
  | .seq a b => rxSize a + rxSize b + 1
  | .alt a b => rxSize a + rxSize b + 1
  | .star a => rxSize a + 1
  | .plus a => rxSize a + 1
  | .opt a => rxSize a + 1
  | .grp a => rxSize a + 1

/-- Fuel that is always sufficient for the patterns and inputs considered
here (the proofs only use that it is at least `2 * length + 4`). -/
def acceptsFuel (r : Rx) (s : List Char) : Nat :=
  (rxSize r + 2) * (s.length + 2)

/-- Modelled from the spec: the backend finds a match of a `^`-anchored
pattern at the start of the URL, with the remainder of the URL
unconstrained. -/
def accepts (r : Rx) (s : List Char) : Bool :=
  mrx (acceptsFuel r s) r s (fun _ => true)

/-- Rendering a parse tree back to pattern text; literal characters are
escaped exactly as `escapeRegex` produces them, so `render` links a parse
tree to the pattern string the compiler emitted. -/
def renderRange (p : Char × Char) : List Char :=
  if p.1 = p.2 then [p.1] else [p.1, '-', p.2]

/-- Pattern text of a parse tree. -/
def render : Rx → List Char
  | .emp => []
  | .chr c => if isEscChar c then ['\\', c] else [c]
  | .cls neg rs => '[' :: ((if neg then ['^'] else []) ++ rs.flatMap renderRange ++ [']'])
  | .endAnchor => ['$']
  | .seq a b => render a ++ render b
  | .alt a b => render a ++ '|' :: render b
  | .star a => render a ++ ['*']
  | .plus a => render a ++ ['+']
  | .opt a => render a ++ ['?']
  | .grp a => '(' :: (render a ++ [')'])

/-- A literal character sequence as a parse tree. -/
def lit : List Char → Rx
  | [] => .emp
  | c :: cs => .seq (.chr c) (lit cs)

/-- The `[a-z0-9-]` subdomain-label class of the hosts-file pattern. -/
def labelRanges : List (Char × Char) :=
  [('a', 'z'), ('0', '9'), ('-', '-')]

/-- The class node `[a-z0-9-]`. -/
def labelCls : Rx := .cls false labelRanges

/-- The group `([a-z0-9-]+\.)`. -/
def labelGroup : Rx := .grp (.seq (.plus labelCls) (.chr '.'))

/-- The subdomain part `([a-z0-9-]+\.)*`. -/
def subdomainsRx : Rx := .star labelGroup

/-- The scheme part `https?://` (the leading `^` is the anchor `accepts`
applies by matching at the start of the URL). -/
def schemeRx : Rx :=
  .seq (lit ['h', 't', 't', 'p']) (.seq (.opt (.chr 's')) (lit [':', '/', '/']))

/-- The trailing `(/|$)` of the hosts-file pattern. -/
def hostsTailRx : Rx := .grp (.alt (.chr '/') .endAnchor)

/-- The parse tree of the pattern `parseHostsFile` emits for `domain`:
`^https?://([a-z0-9-]+\.)*<escaped domain>(/|$)` (see `render_hostsAst`). -/
def hostsAst (domain : List Char) : Rx :=
  .seq schemeRx (.seq subdomainsRx (.seq (lit domain) hostsTailRx))

/-- Concatenation of subdomain labels, each followed by its dot. -/
def flatLabels (labels : List (List Char)) : List Char :=
  labels.flatMap (fun l => l ++ ['.'])

/-- A well-formed subdomain label list: every label is non-empty and drawn
from `[a-z0-9-]`. -/
def labelsValid (labels : List (List Char)) : Prop :=
  ∀ l ∈ labels, l ≠ [] ∧ ∀ c ∈ l, inClass c labelRanges = true

/-! Infrastructure lemmas about the helper functions. -/

theorem jsSplit_no_sep {sep : Char} :
    ∀ {l : List Char}, (∀ c ∈ l, c ≠ sep) → jsSplit sep l = [l] := by
  intro l
  induction l with
  | nil => intro _; rfl
  | cons c rest ih =>
    intro h
    have hc : c ≠ sep := h c (List.mem_cons_self c rest)
    have hr := ih (fun x hx => h x (List.mem_cons_of_mem _ hx))
    simp [jsSplit, hc, hr]

theorem mem_dedupAux :
    ∀ (l seen : List (List Char)) (x : List Char),
      x ∈ dedupAux seen l ↔ x ∈ l ∧ x ∉ seen := by
  intro l
  induction l with
  | nil => intro seen x; simp [dedupAux]
  | cons y ys ih =>
    intro seen x
    by_cases hy : y ∈ seen
    · simp only [dedupAux, if_pos hy, ih, List.mem_cons]
      constructor
      · rintro ⟨hx, hns⟩; exact ⟨Or.inr hx, hns⟩
      · rintro ⟨hx | hx, hns⟩
        · exact absurd (hx ▸ hy) hns
        · exact ⟨hx, hns⟩
    · have hd : dedupAux seen (y :: ys) = y :: dedupAux (y :: seen) ys := by
        simp [dedupAux, hy]
      rw [hd, List.mem_cons, ih]
      constructor
      · rintro (rfl | ⟨hx, hns⟩)
        · exact ⟨List.mem_cons_self _ _, hy⟩
        · exact ⟨List.mem_cons_of_mem _ hx, fun hs => hns (List.mem_cons_of_mem _ hs)⟩
      · rintro ⟨hx, hns⟩
        rcases List.mem_cons.mp hx with rfl | hx'
        · exact Or.inl rfl
        · by_cases hxy : x = y
          · exact Or.inl hxy
          · refine Or.inr ⟨hx', fun hs => ?_⟩
            rcases List.mem_cons.mp hs with h | h
            · exact hxy h
            · exact hns h

theorem nodup_dedupAux :
    ∀ (l seen : List (List Char)), (dedupAux seen l).Nodup := by
  intro l
  induction l with
  | nil => intro seen; simp [dedupAux]
  | cons y ys ih =>
    intro seen
    by_cases hy : y ∈ seen
    · simpa [dedupAux, hy] using ih _
    · simp only [dedupAux, if_neg hy, List.nodup_cons]
      exact ⟨fun hmem => ((mem_dedupAux _ _ _).mp hmem).2 (List.mem_cons_self _ _), ih _⟩

theorem mem_dedupFirst (l : List (List Char)) (x : List Char) :
    x ∈ dedupFirst l ↔ x ∈ l := by
  simp [dedupFirst, mem_dedupAux]

theorem nodup_dedupFirst (l : List (List Char)) : (dedupFirst l).Nodup :=
  nodup_dedupAux l []

theorem scanStep_excluded_mono (domain : List Char) :
    ∀ (ds : List (List Char)) (st : Bool × Bool), st.2 = true →
      (ds.foldl (scanStep domain) st).2 = true := by
  intro ds
  induction ds with
  | nil => intro st h; simpa using h
  | cons rd ds ih =>
    intro st h
    have hstep : (scanStep domain st rd).2 = true := by
      unfold scanStep
      split
      · split
        · rfl
        · exact h
      · split
        · exact h
        · exact h
    simpa [List.foldl_cons] using ih _ hstep

theorem scan_excluded (domain : List Char) :
    ∀ (ds : List (List Char)) (st : Bool × Bool) (rd : List Char), rd ∈ ds →
      ['~'].isPrefixOf rd = true → domainMatches domain (rd.drop 1) = true →
      (ds.foldl (scanStep domain) st).2 = true := by
  intro ds
  induction ds with
  | nil => intro st rd h _ _; simp at h
  | cons a ds ih =>
    intro st rd hmem hpre hmatch
    rcases List.mem_cons.mp hmem with rfl | hmem'
    · have hmatch' : domainMatches domain rd.tail = true := by
        simpa [List.drop_one] using hmatch
      have hstep : (scanStep domain st rd).2 = true := by
        simp [scanStep, hpre, hmatch, hmatch']
      simpa [List.foldl_cons] using scanStep_excluded_mono domain ds _ hstep
    · simpa [List.foldl_cons] using ih _ _ hmem' hpre hmatch

theorem ruleApplies_excluded (rd : List Char) {domains : List (List Char)}
    {domain : List Char}
    (hmem : rd ∈ domains) (hpre : ['~'].isPrefixOf rd = true)
    (hmatch : domainMatches domain (rd.drop 1) = true) :
    ruleApplies domains domain = false := by
  have hne : domains.isEmpty = false := by
    cases domains with
    | nil => simp at hmem
    | cons a l => rfl
  have hexc := scan_excluded domain domains (false, false) rd hmem hpre hmatch
  unfold ruleApplies
  rw [hne]
  simp [hexc]

/-! Lemmas about the backend matcher model. -/

theorem mrx_mono :
    ∀ {f f' : Nat}, f ≤ f' → ∀ {r : Rx} {s : List Char} {k k' : List Char → Bool},
      (∀ t, k t = true → k' t = true) → mrx f r s k = true → mrx f' r s k' = true := by
  intro f
  induction f with
  | zero => intro f' _ r s k k' _ h; simp [mrx] at h
  | succ f ih =>
    intro f' hff r s k k' hk h
    obtain ⟨g, rfl⟩ : ∃ g, f' = g + 1 := ⟨f' - 1, by omega⟩
    have hf : f ≤ g := by omega
    cases r with
    | emp =>
      simp only [mrx] at h ⊢
      exact hk _ h
    | chr c =>
      cases s with
      | nil => simp [mrx] at h
      | cons x xs =>
        simp only [mrx, Bool.and_eq_true, decide_eq_true_eq] at h ⊢
        exact ⟨h.1, hk _ h.2⟩
    | cls neg rs =>
      cases s with
      | nil => simp [mrx] at h
      | cons x xs =>
        simp only [mrx, Bool.and_eq_true] at h ⊢
        exact ⟨h.1, hk _ h.2⟩
    | endAnchor =>
      simp only [mrx, Bool.and_eq_true] at h ⊢
      exact ⟨h.1, hk _ h.2⟩
    | seq a b =>
      simp only [mrx] at h ⊢
      exact ih hf (fun t ht => ih hf hk ht) h
    | alt a b =>
      simp only [mrx, Bool.or_eq_true] at h ⊢
      rcases h with h | h
      · exact Or.inl (ih hf hk h)
      · exact Or.inr (ih hf hk h)
    | star a =>
      simp only [mrx, Bool.or_eq_true] at h ⊢
      rcases h with h | h
      · exact Or.inl (hk _ h)
      · refine Or.inr (ih hf ?_ h)
        intro t ht
        simp only [Bool.and_eq_true] at ht ⊢
        exact ⟨ht.1, ih hf hk ht.2⟩
    | plus a =>
      simp only [mrx] at h ⊢
      exact ih hf (fun t ht => ih hf hk ht) h
    | opt a =>
      simp only [mrx, Bool.or_eq_true] at h ⊢
      rcases h with h | h
      · exact Or.inl (ih hf hk h)
      · exact Or.inr (hk _ h)
    | grp a =>
      simp only [mrx] at h ⊢
      exact ih hf hk h

theorem mrx_emp_eq {f : Nat} {s : List Char} {k : List Char → Bool} :
    mrx (f + 1) .emp s k = k s := rfl

theorem mrx_chr_cons {f : Nat} {c x : Char} {xs : List Char} {k : List Char → Bool} :
    mrx (f + 1) (.chr c) (x :: xs) k = (decide (x = c) && k xs) := rfl

theorem mrx_cls_cons {f : Nat} {neg : Bool} {rs : List (Char × Char)} {x : Char}
    {xs : List Char} {k : List Char → Bool} :
    mrx (f + 1) (.cls neg rs) (x :: xs) k = ((inClass x rs != neg) && k xs) := rfl

theorem mrx_end_eq {f : Nat} {s : List Char} {k : List Char → Bool} :
    mrx (f + 1) .endAnchor s k = (s.isEmpty && k s) := rfl

theorem mrx_seq_eq {f : Nat} {a b : Rx} {s : List Char} {k : List Char → Bool} :
    mrx (f + 1) (.seq a b) s k = mrx f a s (fun t => mrx f b t k) := rfl

theorem mrx_alt_eq {f : Nat} {a b : Rx} {s : List Char} {k : List Char → Bool} :
    mrx (f + 1) (.alt a b) s k = (mrx f a s k || mrx f b s k) := rfl

theorem mrx_star_eq {f : Nat} {a : Rx} {s : List Char} {k : List Char → Bool} :
    mrx (f + 1) (.star a) s k =
      (k s || mrx f a s (fun t => decide (t.length < s.length) && mrx f (.star a) t k)) :=
  rfl

theorem mrx_plus_eq {f : Nat} {a : Rx} {s : List Char} {k : List Char → Bool} :
    mrx (f + 1) (.plus a) s k = mrx f a s (fun t => mrx f (.star a) t k) := rfl

theorem mrx_opt_eq {f : Nat} {a : Rx} {s : List Char} {k : List Char → Bool} :
    mrx (f + 1) (.opt a) s k = (mrx f a s k || k s) := rfl

theorem mrx_grp_eq {f : Nat} {a : Rx} {s : List Char} {k : List Char → Bool} :
    mrx (f + 1) (.grp a) s k = mrx f a s k := rfl

theorem mrx_labelCls_cons {f : Nat} {x : Char} {xs : List Char}
    {k : List Char → Bool} :
    mrx (f + 1) labelCls (x :: xs) k = ((inClass x labelRanges != false) && k xs) :=
  rfl

theorem mrx_labelGroup_eq {f : Nat} {s : List Char} {k : List Char → Bool} :
    mrx (f + 1) labelGroup s k = mrx f (.seq (.plus labelCls) (.chr '.')) s k := rfl

theorem mrx_subdomainsRx_eq {f : Nat} {s : List Char} {k : List Char → Bool} :
    mrx (f + 1) subdomainsRx s k =
      (k s ||
        mrx f labelGroup s
          (fun t => decide (t.length < s.length) && mrx f subdomainsRx t k)) := rfl

theorem mrx_schemeRx_eq {f : Nat} {s : List Char} {k : List Char → Bool} :
    mrx (f + 1) schemeRx s k =
      mrx f (lit ['h', 't', 't', 'p']) s
        (fun t => mrx f (.seq (.opt (.chr 's')) (lit [':', '/', '/'])) t k) := rfl

theorem mrx_hostsTailRx_eq {f : Nat} {s : List Char} {k : List Char → Bool} :
    mrx (f + 1) hostsTailRx s k = mrx f (.alt (.chr '/') .endAnchor) s k := rfl

theorem mrx_hostsAst_eq {f : Nat} {d s : List Char} {k : List Char → Bool} :
    mrx (f + 1) (hostsAst d) s k =
      mrx f schemeRx s
        (fun t => mrx f (.seq subdomainsRx (.seq (lit d) hostsTailRx)) t k) := rfl

theorem mrx_lit :
    ∀ (cs : List Char) {t : List Char} {k : List Char → Bool} {f : Nat},
      cs.length + 2 ≤ f → k t = true → mrx f (lit cs) (cs ++ t) k = true := by
  intro cs
  induction cs with
  | nil =>
    intro t k f hf hk
    obtain ⟨g, rfl⟩ : ∃ g, f = g + 1 := ⟨f - 1, by omega⟩
    simpa [lit, mrx_emp_eq] using hk
  | cons c cs ih =>
    intro t k f hf hk
    simp only [List.length_cons] at hf
    obtain ⟨g, rfl⟩ : ∃ g, f = g + 1 := ⟨f - 1, by omega⟩
    rw [show lit (c :: cs) = .seq (.chr c) (lit cs) from rfl, List.cons_append,
      mrx_seq_eq]
    obtain ⟨g', rfl⟩ : ∃ x, g = x + 1 := ⟨g - 1, by omega⟩
    rw [mrx_chr_cons]
    simp only [decide_eq_true_eq, Bool.and_eq_true, eq_self_iff_true, true_and]
    exact ih (by omega) hk

theorem mrx_star_cls :
    ∀ (l : List Char) {t : List Char} {k : List Char → Bool} {f : Nat},
      (∀ c ∈ l, inClass c labelRanges = true) → l.length + 2 ≤ f → k t = true →
      mrx f (.star labelCls) (l ++ t) k = true := by
  intro l
  induction l with
  | nil =>
    intro t k f _ hf hk
    obtain ⟨g, rfl⟩ : ∃ g, f = g + 1 := ⟨f - 1, by omega⟩
    rw [List.nil_append, mrx_star_eq]
    simp [hk]
  | cons c l ih =>
    intro t k f hc hf hk
    simp only [List.length_cons] at hf
    obtain ⟨g, rfl⟩ : ∃ g, f = g + 1 := ⟨f - 1, by omega⟩
    rw [List.cons_append, mrx_star_eq, Bool.or_eq_true]
    refine Or.inr ?_
    obtain ⟨g', rfl⟩ : ∃ x, g = x + 1 := ⟨g - 1, by omega⟩
    rw [mrx_labelCls_cons, hc c (List.mem_cons_self _ _)]
    simp only [show ((true : Bool) != false) = true from rfl, Bool.true_and,
      Bool.and_eq_true, decide_eq_true_eq, List.length_cons, List.length_append]
    exact ⟨by omega, ih (fun x hx => hc x (List.mem_cons_of_mem _ hx)) (by omega) hk⟩

theorem mrx_plus_cls :
    ∀ (l : List Char) {t : List Char} {k : List Char → Bool} {f : Nat},
      l ≠ [] → (∀ c ∈ l, inClass c labelRanges = true) → l.length + 3 ≤ f →
      k t = true → mrx f (.plus labelCls) (l ++ t) k = true := by
  intro l
  cases l with
  | nil => intro t k f h; exact absurd rfl h
  | cons c l' =>
    intro t k f _ hc hf hk
    simp only [List.length_cons] at hf
    obtain ⟨g, rfl⟩ : ∃ g, f = g + 1 := ⟨f - 1, by omega⟩
    rw [List.cons_append, mrx_plus_eq]
    obtain ⟨g', rfl⟩ : ∃ x, g = x + 1 := ⟨g - 1, by omega⟩
    rw [mrx_labelCls_cons, hc c (List.mem_cons_self _ _)]
    simp only [show ((true : Bool) != false) = true from rfl, Bool.true_and]
    exact mrx_star_cls l' (fun x hx => hc x (List.mem_cons_of_mem _ hx)) (by omega) hk

theorem mrx_labelGroup :
    ∀ (l : List Char) {rest : List Char} {k : List Char → Bool} {g : Nat},
      l ≠ [] → (∀ c ∈ l, inClass c labelRanges = true) → l.length + 6 ≤ g →
      k rest = true → mrx g labelGroup (l ++ '.' :: rest) k = true := by
  intro l rest k g hne hc hg hk
  obtain ⟨g₁, rfl⟩ : ∃ x, g = x + 1 := ⟨g - 1, by omega⟩
  rw [mrx_labelGroup_eq]
  obtain ⟨g₂, rfl⟩ : ∃ x, g₁ = x + 1 := ⟨g₁ - 1, by omega⟩
  rw [mrx_seq_eq]
  refine mrx_plus_cls l hne hc (by omega) ?_
  obtain ⟨g₃, rfl⟩ : ∃ x, g₂ = x + 1 := ⟨g₂ - 1, by omega⟩
  rw [mrx_chr_cons]
  simp [hk]

theorem mrx_subdomains :
    ∀ (labels : List (List Char)) {t : List Char} {k : List Char → Bool} {f : Nat},
      labelsValid labels → 2 * (flatLabels labels).length + 7 ≤ f → k t = true →
      mrx f subdomainsRx (flatLabels labels ++ t) k = true := by
  intro labels
  induction labels with
  | nil =>
    intro t k f _ hf hk
    obtain ⟨g, rfl⟩ : ∃ x, f = x + 1 := ⟨f - 1, by omega⟩
    have hflat : flatLabels ([] : List (List Char)) = [] := rfl
    rw [hflat, List.nil_append, mrx_subdomainsRx_eq]
    simp [hk]
  | cons l ls ih =>
    intro t k f hv hf hk
    have hlv := hv l (List.mem_cons_self _ _)
    have hlsv : labelsValid ls := fun x hx => hv x (List.mem_cons_of_mem _ hx)
    have hflat : flatLabels (l :: ls) = l ++ '.' :: flatLabels ls := by
      simp [flatLabels]
    have hflen : (flatLabels (l :: ls)).length =
        l.length + 1 + (flatLabels ls).length := by
      rw [hflat]
      simp
      omega
    rw [hflen] at hf
    obtain ⟨g, rfl⟩ : ∃ x, f = x + 1 := ⟨f - 1, by omega⟩
    rw [hflat, List.append_assoc, List.cons_append, mrx_subdomainsRx_eq,
      Bool.or_eq_true]
    refine Or.inr ?_
    refine mrx_labelGroup l hlv.1 hlv.2 (by omega) ?_
    simp only [Bool.and_eq_true, decide_eq_true_eq, List.length_cons,
      List.length_append]
    exact ⟨by omega, ih hlsv (by omega) hk⟩

theorem mrx_scheme_https :
    ∀ {t : List Char} {k : List Char → Bool} {f : Nat}, 20 ≤ f → k t = true →
      mrx f schemeRx ("https://".toList ++ t) k = true := by
  intro t k f hf hk
  obtain ⟨g, rfl⟩ : ∃ x, f = x + 1 := ⟨f - 1, by omega⟩
  have hshape : ("https://".toList ++ t : List Char) =
      ['h', 't', 't', 'p'] ++ ('s' :: ([':', '/', '/'] ++ t)) := by
    have h : ("https://".toList : List Char) =
        ['h', 't', 't', 'p', 's', ':', '/', '/'] := by decide
    simp [h]
  rw [hshape, mrx_schemeRx_eq]
  refine mrx_lit _ (by simp; omega) ?_
  obtain ⟨g₁, rfl⟩ : ∃ x, g = x + 1 := ⟨g - 1, by omega⟩
  rw [mrx_seq_eq]
  obtain ⟨g₂, rfl⟩ : ∃ x, g₁ = x + 1 := ⟨g₁ - 1, by omega⟩
  rw [mrx_opt_eq, Bool.or_eq_true]
  refine Or.inl ?_
  obtain ⟨g₃, rfl⟩ : ∃ x, g₂ = x + 1 := ⟨g₂ - 1, by omega⟩
  rw [mrx_chr_cons]
  simp only [decide_eq_true_eq, Bool.and_eq_true, eq_self_iff_true, true_and]
  exact mrx_lit _ (by simp; omega) hk

theorem mrx_scheme_http :
    ∀ {t : List Char} {k : List Char → Bool} {f : Nat}, 20 ≤ f → k t = true →
      mrx f schemeRx ("http://".toList ++ t) k = true := by
  intro t k f hf hk
  obtain ⟨g, rfl⟩ : ∃ x, f = x + 1 := ⟨f - 1, by omega⟩
  have hshape : ("http://".toList ++ t : List Char) =
      ['h', 't', 't', 'p'] ++ ([':', '/', '/'] ++ t) := by
    have h : ("http://".toList : List Char) =
        ['h', 't', 't', 'p', ':', '/', '/'] := by decide
    simp [h]
  rw [hshape, mrx_schemeRx_eq]
  refine mrx_lit _ (by simp; omega) ?_
  obtain ⟨g₁, rfl⟩ : ∃ x, g = x + 1 := ⟨g - 1, by omega⟩
  rw [mrx_seq_eq]
  obtain ⟨g₂, rfl⟩ : ∃ x, g₁ = x + 1 := ⟨g₁ - 1, by omega⟩
  rw [mrx_opt_eq, Bool.or_eq_true]
  refine Or.inr ?_
  exact mrx_lit _ (by simp; omega) hk

theorem mrx_tail_slash :
    ∀ {rest : List Char} {k : List Char → Bool} {f : Nat}, 4 ≤ f →
      k rest = true → mrx f hostsTailRx ('/' :: rest) k = true := by
  intro rest k f hf hk
  obtain ⟨g, rfl⟩ : ∃ x, f = x + 1 := ⟨f - 1, by omega⟩
  rw [mrx_hostsTailRx_eq]
  obtain ⟨g₁, rfl⟩ : ∃ x, g = x + 1 := ⟨g - 1, by omega⟩
  rw [mrx_alt_eq, Bool.or_eq_true]
  refine Or.inl ?_
  obtain ⟨g₂, rfl⟩ : ∃ x, g₁ = x + 1 := ⟨g₁ - 1, by omega⟩
  rw [mrx_chr_cons]
  simp [hk]

theorem mrx_tail_end :
    ∀ {k : List Char → Bool} {f : Nat}, 4 ≤ f → k [] = true →
      mrx f hostsTailRx [] k = true := by
  intro k f hf hk
  obtain ⟨g, rfl⟩ : ∃ x, f = x + 1 := ⟨f - 1, by omega⟩
  rw [mrx_hostsTailRx_eq]
  obtain ⟨g₁, rfl⟩ : ∃ x, g = x + 1 := ⟨g - 1, by omega⟩
  rw [mrx_alt_eq, Bool.or_eq_true]
  refine Or.inr ?_
  obtain ⟨g₂, rfl⟩ : ∃ x, g₁ = x + 1 := ⟨g₁ - 1, by omega⟩
  rw [mrx_end_eq]
  simp [hk]

theorem rxSize_lit (cs : List Char) : rxSize (lit cs) = 2 * cs.length + 1 := by
  induction cs with
  | nil => rfl
  | cons c cs ih => simp [lit, rxSize, ih]; omega

theorem rxSize_hostsAst (d : List Char) :
    rxSize (hostsAst d) = 2 * d.length + 34 := by
  simp [hostsAst, schemeRx, subdomainsRx, labelGroup, labelCls, hostsTailRx,
    rxSize, rxSize_lit]
  omega

theorem render_lit (cs : List Char) : render (lit cs) = escapeRegex cs := by
  induction cs with
  | nil => simp [lit, render, escapeRegex]
  | cons c cs ih => simp [lit, render, escapeRegex, ih]

theorem render_hostsAst (d : List Char) :
    '^' :: render (hostsAst d) = hostsPatternFor d := by
  have h1 : render schemeRx = "https?://".toList := by decide
  have h2 : render subdomainsRx = "([a-z0-9-]+\\.)*".toList := by decide
  have h3 : render hostsTailRx = "(/|$)".toList := by decide
  have h4 : ("^https?://([a-z0-9-]+\\.)*".toList : List Char) =
      '^' :: ("https?://".toList ++ "([a-z0-9-]+\\.)*".toList) := by decide
  have hren : render (hostsAst d) =
      render schemeRx ++
        (render subdomainsRx ++ (render (lit d) ++ render hostsTailRx)) := rfl
  rw [hren, h1, h2, h3, render_lit, hostsPatternFor, h4]
  simp [List.append_assoc]

theorem hostsAst_accepts (d : List Char) (labels : List (List Char))
    (rest : List Char) (hv : labelsValid labels) :
    accepts (hostsAst d)
      ("https://".toList ++ (flatLabels labels ++ (d ++ '/' :: rest))) = true ∧
    accepts (hostsAst d) ("https://".toList ++ (flatLabels labels ++ d)) = true := by
  have h8 : ("https://".toList : List Char).length = 8 := by decide
  constructor
  · unfold accepts
    set s := "https://".toList ++ (flatLabels labels ++ (d ++ '/' :: rest)) with hs
    have hlen : s.length =
        8 + ((flatLabels labels).length + (d.length + (1 + rest.length))) := by
      simp [hs, List.length_append, h8]
      omega
    have hF : 36 * (s.length + 2) ≤ acceptsFuel (hostsAst d) s := by
      rw [acceptsFuel, rxSize_hostsAst]
      exact Nat.mul_le_mul_right _ (by omega)
    obtain ⟨g, hg⟩ : ∃ x, acceptsFuel (hostsAst d) s = x + 1 :=
      ⟨acceptsFuel (hostsAst d) s - 1, by omega⟩
    rw [hg] at hF
    rw [hg, hs, mrx_hostsAst_eq]
    refine mrx_scheme_https (f := g) (by omega) ?_
    obtain ⟨g₁, rfl⟩ : ∃ x, g = x + 1 := ⟨g - 1, by omega⟩
    rw [mrx_seq_eq]
    refine mrx_subdomains labels (f := g₁) hv (by omega) ?_
    obtain ⟨g₂, rfl⟩ : ∃ x, g₁ = x + 1 := ⟨g₁ - 1, by omega⟩
    rw [mrx_seq_eq]
    refine mrx_lit d (f := g₂) (by omega) ?_
    exact mrx_tail_slash (f := g₂) (by omega) rfl
  · unfold accepts
    set s := "https://".toList ++ (flatLabels labels ++ d) with hs
    have hlen : s.length = 8 + ((flatLabels labels).length + d.length) := by
      simp [hs, List.length_append, h8]
      omega
    have hF : 36 * (s.length + 2) ≤ acceptsFuel (hostsAst d) s := by
      rw [acceptsFuel, rxSize_hostsAst]
      exact Nat.mul_le_mul_right _ (by omega)
    obtain ⟨g, hg⟩ : ∃ x, acceptsFuel (hostsAst d) s = x + 1 :=
      ⟨acceptsFuel (hostsAst d) s - 1, by omega⟩
    rw [hg] at hF
    rw [hg, hs, mrx_hostsAst_eq]
    refine mrx_scheme_https (f := g) (by omega) ?_
    obtain ⟨g₁, rfl⟩ : ∃ x, g = x + 1 := ⟨g - 1, by omega⟩
    rw [mrx_seq_eq]
    refine mrx_subdomains labels (f := g₁) hv (by omega) ?_
    obtain ⟨g₂, rfl⟩ : ∃ x, g₁ = x + 1 := ⟨g₁ - 1, by omega⟩
    rw [mrx_seq_eq]
    have hd : (d : List Char) = d ++ [] := by simp
    nth_rewrite 2 [hd]
    refine mrx_lit d (f := g₂) (by omega) ?_
    exact mrx_tail_end (f := g₂) (by omega) rfl

/-! Lemmas about the rule compiler and the custom-rule translators. -/

theorem compileCustomToDNR_cases {c : CustomRule} {i : Nat} {d : DNRRule}
    (h : compileCustomToDNR c i = some d) :
    d.id = i ∧
      ((c.type = "block".toList ∧ d.priority = 2 ∧ d.action = .block) ∨
        (c.type = "allow".toList ∧ d.priority = 3 ∧ d.action = .allow)) := by
  unfold compileCustomToDNR at h
  split at h
  · rename_i hb
    injection h with h
    subst h
    exact ⟨rfl, Or.inl ⟨hb, rfl, rfl⟩⟩
  · split at h
    · rename_i ha
      injection h with h
      subst h
      exact ⟨rfl, Or.inr ⟨ha, rfl, rfl⟩⟩
    · simp at h

theorem compileCustomToDNR_none {c : CustomRule} {i : Nat}
    (h : compileCustomToDNR c i = none) :
    ¬c.type = "block".toList ∧ ¬c.type = "allow".toList := by
  unfold compileCustomToDNR at h
  split at h
  · simp at h
  · split at h
    · simp at h
    · rename_i hb ha
      exact ⟨hb, ha⟩

theorem compileCustomToDNR_allow {c : CustomRule} {i : Nat}
    (h : c.type = "allow".toList) :
    compileCustomToDNR c i =
      some { id := i, priority := 3, action := .allow,
             condition := { urlFilter := some c.pattern } } := by
  unfold compileCustomToDNR
  rw [h, if_neg (by decide), if_pos rfl]

theorem compileListRules_inv :
    ∀ (rs : List ParsedRule) (st : CompState),
      (st.rules.map DNRRule.id).Pairwise (· < ·) →
      (∀ r ∈ st.rules, r.id < st.ruleId) →
      ((compileListRules st rs).rules.map DNRRule.id).Pairwise (· < ·) ∧
        (∀ r ∈ (compileListRules st rs).rules, r.id < (compileListRules st rs).ruleId) ∧
        st.ruleId ≤ (compileListRules st rs).ruleId ∧
        (∀ r ∈ (compileListRules st rs).rules, r ∈ st.rules ∨ st.ruleId ≤ r.id) := by
  intro rs
  induction rs with
  | nil => intro st h1 h2; exact ⟨h1, h2, le_refl _, fun r hr => Or.inl hr⟩
  | cons r rs ih =>
    intro st h1 h2
    cases r with
    | networkBlock pattern orig options =>
      obtain ⟨dnr, hdnr, hid⟩ :
          ∃ dnr, compileToDNR pattern options st.ruleId = some dnr ∧
            dnr.id = st.ruleId := ⟨_, rfl, rfl⟩
      have hunf : compileListRules st (ParsedRule.networkBlock pattern orig options :: rs) =
          compileListRules ⟨st.ruleId + 1, st.rules ++ [dnr]⟩ rs := by
        simp only [compileListRules, hdnr]
      rw [hunf]
      have h1' : (((st.rules ++ [dnr]).map DNRRule.id).Pairwise (· < ·)) := by
        rw [List.map_append, List.pairwise_append]
        refine ⟨h1, by simp, ?_⟩
        intro a ha b hb
        simp only [List.map_cons, List.map_nil, List.mem_singleton] at hb
        subst hb
        rw [hid]
        obtain ⟨r0, hr0, rfl⟩ := List.mem_map.mp ha
        exact h2 r0 hr0
      have h2' : ∀ r' ∈ st.rules ++ [dnr], r'.id < st.ruleId + 1 := by
        intro r' hr'
        rcases List.mem_append.mp hr' with h | h
        · exact Nat.lt_succ_of_lt (h2 r' h)
        · rcases List.mem_singleton.mp h with rfl
          rw [hid]
          exact Nat.lt_succ_self _
      obtain ⟨ih1, ih2, ih3, ih4⟩ := ih ⟨st.ruleId + 1, st.rules ++ [dnr]⟩ h1' h2'
      refine ⟨ih1, ih2, le_trans (Nat.le_succ _) ih3, ?_⟩
      intro r' hr'
      rcases ih4 r' hr' with h | h
      · rcases List.mem_append.mp h with h' | h'
        · exact Or.inl h'
        · rcases List.mem_singleton.mp h' with rfl
          rw [hid]
          exact Or.inr (le_refl _)
      · exact Or.inr (le_trans (Nat.le_succ _) h)
    | elementHide doms sel =>
      simp only [compileListRules]
      exact ih st h1 h2
    | elementException doms sel =>
      simp only [compileListRules]
      exact ih st h1 h2
    | scriptlet doms script =>
      simp only [compileListRules]
      exact ih st h1 h2
    | networkException pattern orig options =>
      simp only [compileListRules]
      exact ih st h1 h2

theorem compileAllLists_inv :
    ∀ (fls : List FilterListData) (st : CompState),
      (st.rules.map DNRRule.id).Pairwise (· < ·) →
      (∀ r ∈ st.rules, r.id < st.ruleId) →
      ((compileAllLists st fls).rules.map DNRRule.id).Pairwise (· < ·) ∧
        (∀ r ∈ (compileAllLists st fls).rules, r.id < (compileAllLists st fls).ruleId) ∧
        st.ruleId ≤ (compileAllLists st fls).ruleId ∧
        (∀ r ∈ (compileAllLists st fls).rules, r ∈ st.rules ∨ st.ruleId ≤ r.id) := by
  intro fls
  induction fls with
  | nil => intro st h1 h2; exact ⟨h1, h2, le_refl _, fun r hr => Or.inl hr⟩
  | cons l ls ih =>
    intro st h1 h2
    obtain ⟨p1, p2, p3, p4⟩ := compileListRules_inv l.rules st h1 h2
    have hunf : compileAllLists st (l :: ls) =
        if 30000 ≤ (compileListRules st l.rules).rules.length then
          compileListRules st l.rules
        else compileAllLists (compileListRules st l.rules) ls := by
      simp only [compileAllLists]
    rw [hunf]
    split
    · exact ⟨p1, p2, p3, p4⟩
    · obtain ⟨q1, q2, q3, q4⟩ := ih _ p1 p2
      refine ⟨q1, q2, le_trans p3 q3, ?_⟩
      intro r hr
      rcases q4 r hr with h | h
      · rcases p4 r h with h' | h'
        · exact Or.inl h'
        · exact Or.inr h'
      · exact Or.inr (le_trans p3 h)

theorem compileCustomRules_inv :
    ∀ (cs : List CustomRule) (st : CompState),
      (st.rules.map DNRRule.id).Pairwise (· < ·) →
      (∀ r ∈ st.rules, r.id < st.ruleId) →
      ((compileCustomRules st cs).rules.map DNRRule.id).Pairwise (· < ·) ∧
        (∀ r ∈ (compileCustomRules st cs).rules,
          r.id < (compileCustomRules st cs).ruleId) ∧
        st.ruleId ≤ (compileCustomRules st cs).ruleId ∧
        (∀ r ∈ (compileCustomRules st cs).rules, r ∈ st.rules ∨ st.ruleId ≤ r.id) := by
  intro cs
  induction cs with
  | nil => intro st h1 h2; exact ⟨h1, h2, le_refl _, fun r hr => Or.inl hr⟩
  | cons c cs ih =>
    intro st h1 h2
    cases hc : compileCustomToDNR c st.ruleId with
    | none =>
      have hunf : compileCustomRules st (c :: cs) =
          compileCustomRules ⟨st.ruleId + 1, st.rules⟩ cs := by
        simp only [compileCustomRules, hc]
      rw [hunf]
      obtain ⟨ih1, ih2, ih3, ih4⟩ := ih ⟨st.ruleId + 1, st.rules⟩ h1
        (fun r hr => Nat.lt_succ_of_lt (h2 r hr))
      refine ⟨ih1, ih2, le_trans (Nat.le_succ _) ih3, ?_⟩
      intro r hr
      rcases ih4 r hr with h | h
      · exact Or.inl h
      · exact Or.inr (le_trans (Nat.le_succ _) h)
    | some dnr =>
      have hid : dnr.id = st.ruleId := (compileCustomToDNR_cases hc).1
      have hunf : compileCustomRules st (c :: cs) =
          compileCustomRules ⟨st.ruleId + 1, st.rules ++ [dnr]⟩ cs := by
        simp only [compileCustomRules, hc]
      rw [hunf]
      have h1' : (((st.rules ++ [dnr]).map DNRRule.id).Pairwise (· < ·)) := by
        rw [List.map_append, List.pairwise_append]
        refine ⟨h1, by simp, ?_⟩
        intro a ha b hb
        simp only [List.map_cons, List.map_nil, List.mem_singleton] at hb
        subst hb
        rw [hid]
        obtain ⟨r0, hr0, rfl⟩ := List.mem_map.mp ha
        exact h2 r0 hr0
      have h2' : ∀ r' ∈ st.rules ++ [dnr], r'.id < st.ruleId + 1 := by
        intro r' hr'
        rcases List.mem_append.mp hr' with h | h
        · exact Nat.lt_succ_of_lt (h2 r' h)
        · rcases List.mem_singleton.mp h with rfl
          rw [hid]
          exact Nat.lt_succ_self _
      obtain ⟨ih1, ih2, ih3, ih4⟩ := ih ⟨st.ruleId + 1, st.rules ++ [dnr]⟩ h1' h2'
      refine ⟨ih1, ih2, le_trans (Nat.le_succ _) ih3, ?_⟩
      intro r' hr'
      rcases ih4 r' hr' with h | h
      · rcases List.mem_append.mp h with h' | h'
        · exact Or.inl h'
        · rcases List.mem_singleton.mp h' with rfl
          rw [hid]
          exact Or.inr (le_refl _)
      · exact Or.inr (le_trans (Nat.le_succ _) h)

theorem compileCustomRules_length :
    ∀ (cs : List CustomRule) (st : CompState),
      (compileCustomRules st cs).rules.length =
        st.rules.length +
          cs.countP (fun c =>
            decide (c.type = "block".toList) || decide (c.type = "allow".toList)) := by
  intro cs
  induction cs with
  | nil => intro st; simp [compileCustomRules]
  | cons c cs ih =>
    intro st
    cases hc : compileCustomToDNR c st.ruleId with
    | none =>
      obtain ⟨hb, ha⟩ := compileCustomToDNR_none hc
      have hunf : compileCustomRules st (c :: cs) =
          compileCustomRules ⟨st.ruleId + 1, st.rules⟩ cs := by
        simp only [compileCustomRules, hc]
      rw [hunf, ih]
      simp only [List.countP_cons]
      rw [decide_eq_false hb, decide_eq_false ha]
      simp
    | some dnr =>
      have hpred : (decide (c.type = "block".toList) ||
          decide (c.type = "allow".toList)) = true := by
        rcases (compileCustomToDNR_cases hc).2 with ⟨h, _⟩ | ⟨h, _⟩ <;> simp [h]
      have hunf : compileCustomRules st (c :: cs) =
          compileCustomRules ⟨st.ruleId + 1, st.rules ++ [dnr]⟩ cs := by
        simp only [compileCustomRules, hc]
      rw [hunf, ih, List.countP_cons]
      simp only [hpred]
      simp
      omega

theorem compileListRules_replicate :
    ∀ (n : Nat) (st : CompState) (p o : List Char) (opts : RuleOptions),
      (compileListRules st (List.replicate n (.networkBlock p o opts))).rules.length =
        st.rules.length + n := by
  intro n
  induction n with
  | zero => intro st p o opts; simp [List.replicate, compileListRules]
  | succ n ih =>
    intro st p o opts
    obtain ⟨dnr, hdnr⟩ :
        ∃ dnr, compileToDNR p opts st.ruleId = some dnr := ⟨_, rfl⟩
    rw [List.replicate_succ]
    have hunf : compileListRules st
        (ParsedRule.networkBlock p o opts :: List.replicate n (.networkBlock p o opts)) =
        compileListRules ⟨st.ruleId + 1, st.rules ++ [dnr]⟩
          (List.replicate n (.networkBlock p o opts)) := by
      simp only [compileListRules, hdnr]
    rw [hunf, ih]
    simp
    omega

theorem compileToDNR_fields {p : List Char} {o : RuleOptions} {i : Nat} {d : DNRRule}
    (h : compileToDNR p o i = some d) :
    d.id = i ∧ d.priority = 1 ∧ d.action = .block := by
  obtain ⟨d', hd', hid, hprio, hact⟩ :
      ∃ d', compileToDNR p o i = some d' ∧ d'.id = i ∧ d'.priority = 1 ∧
        d'.action = ActionType.block := ⟨_, rfl, rfl, rfl, rfl⟩
  rw [hd'] at h
  injection h with h
  subst h
  exact ⟨hid, hprio, hact⟩

/-! Lemmas about the hosts-file line parser. -/

theorem isPrefixOf_append (pre rest : List Char) :
    pre.isPrefixOf (pre ++ rest) = true := by
  induction pre with
  | nil => simp [List.isPrefixOf]
  | cons c cs ih => simp [List.isPrefixOf, ih]

theorem dropWhile_isJsWs_eq_self {d : List Char}
    (h : ∀ c ∈ d, isJsWs c = false) : d.dropWhile isJsWs = d := by
  cases d with
  | nil => rfl
  | cons c cs =>
    rw [List.dropWhile_cons, if_neg]
    simp [h c (List.mem_cons_self _ _)]

theorem jsTrim_eq_self_of {l : List Char} {a b : Char} {t u : List Char}
    (hl : l = a :: t) (ha : isJsWs a = false) (hrev : l.reverse = b :: u)
    (hb : isJsWs b = false) : jsTrim l = l := by
  unfold jsTrim
  rw [hl, List.dropWhile_cons, if_neg (by simp [ha]), ← hl, hrev,
    List.dropWhile_cons, if_neg (by simp [hb]), ← hrev, List.reverse_reverse]

theorem hostsCapture_entry (ip d : List Char) (hne : d ≠ [])
    (hws : ∀ c ∈ d, isJsWs c = false) :
    hostsCapture ip ((ip ++ [' ']) ++ d) = some d := by
  unfold hostsCapture
  rw [List.append_assoc]
  rw [isPrefixOf_append, if_pos rfl, List.drop_left]
  have hcons : ([' '] ++ d : List Char) = ' ' :: d := rfl
  rw [hcons]
  have hafter : (' ' :: d).dropWhile isJsWs = d := by
    rw [List.dropWhile_cons, if_pos (by decide)]
    exact dropWhile_isJsWs_eq_self hws
  cases d with
  | nil => exact absurd rfl hne
  | cons c cs =>
    simp only [hafter]
    rw [if_pos (by decide), if_neg (by simp)]

theorem hostsLineRule_capture {line d : List Char}
    (htrim : jsTrim line = line)
    (hskip : (line.isEmpty || ['#'].isPrefixOf line) = false)
    (hmatch : hostsLineMatch line = some d)
    (hsplit : jsSplit '#' d = [d])
    (htrimd : jsTrim d = d)
    (hne : d ≠ []) (hloc : d ≠ "localhost".toList) :
    hostsLineRule line = some (.networkBlock (hostsPatternFor d) line {}) := by
  simp only [hostsLineRule]
  rw [htrim, hskip]
  simp only [Bool.false_eq_true, if_false]
  rw [hmatch]
  simp only [hsplit, List.headD_cons]
  rw [htrimd, if_pos ⟨hne, hloc⟩]

theorem hostsLineRule_entry (c₀ : Char) (d₀ : List Char)
    (hloc : c₀ :: d₀ ≠ "localhost".toList)
    (hchar : ∀ c ∈ c₀ :: d₀, isJsWs c = false ∧ c ≠ '#') (ip : List Char)
    (hip : ip = "0.0.0.0".toList ∨ ip = "127.0.0.1".toList) :
    hostsLineRule ((ip ++ [' ']) ++ c₀ :: d₀) =
      some (.networkBlock (hostsPatternFor (c₀ :: d₀))
        ((ip ++ [' ']) ++ c₀ :: d₀) {}) := by
  have hne : (c₀ :: d₀ : List Char) ≠ [] := by simp
  have hws : ∀ c ∈ c₀ :: d₀, isJsWs c = false := fun c hc => (hchar c hc).1
  have hhash : ∀ c ∈ c₀ :: d₀, c ≠ '#' := fun c hc => (hchar c hc).2
  obtain ⟨b, u, hdrev⟩ : ∃ b u, (c₀ :: d₀).reverse = b :: u := by
    cases hr : (c₀ :: d₀).reverse with
    | nil => simpa using congrArg List.length hr
    | cons b u => exact ⟨b, u, rfl⟩
  have hbmem : b ∈ c₀ :: d₀ := by
    rw [← List.mem_reverse, hdrev]
    exact List.mem_cons_self _ _
  have hbws : isJsWs b = false := hws b hbmem
  have hsplit : jsSplit '#' (c₀ :: d₀) = [c₀ :: d₀] := jsSplit_no_sep hhash
  have htrimd : jsTrim (c₀ :: d₀) = c₀ :: d₀ :=
    jsTrim_eq_self_of rfl (hws c₀ (List.mem_cons_self _ _)) hdrev hbws
  rcases hip with rfl | rfl
  · have hrev : ((("0.0.0.0".toList ++ [' ']) ++ c₀ :: d₀).reverse : List Char) =
        b :: (u ++ ("0.0.0.0".toList ++ [' ']).reverse) := by
      rw [List.reverse_append, hdrev, List.cons_append]
    refine hostsLineRule_capture (jsTrim_eq_self_of rfl (by decide) hrev hbws)
      rfl ?_ hsplit htrimd hne hloc
    unfold hostsLineMatch
    rw [hostsCapture_entry _ _ hne hws]
  · have hrev : ((("127.0.0.1".toList ++ [' ']) ++ c₀ :: d₀).reverse : List Char) =
        b :: (u ++ ("127.0.0.1".toList ++ [' ']).reverse) := by
      rw [List.reverse_append, hdrev, List.cons_append]
    refine hostsLineRule_capture (jsTrim_eq_self_of rfl (by decide) hrev hbws)
      rfl ?_ hsplit htrimd hne hloc
    unfold hostsLineMatch
    have h0 : hostsCapture "0.0.0.0".toList
        (("127.0.0.1".toList ++ [' ']) ++ c₀ :: d₀) = none := by
      unfold hostsCapture
      rw [if_neg]
      simp [show ("0.0.0.0".toList : List Char).isPrefixOf
        (("127.0.0.1".toList ++ [' ']) ++ c₀ :: d₀) = false from rfl]
    rw [h0, hostsCapture_entry _ _ hne hws]

/-! Lemmas about the whitelist and blacklist rule constructors. -/

theorem whitelistRulesAux_mem :
    ∀ (wl : List (List Char)) (n : Nat) (r : DNRRule), r ∈ whitelistRulesAux n wl →
      r.priority = 10 ∧ r.action = .allow := by
  intro wl
  induction wl with
  | nil => intro n r h; simp [whitelistRulesAux] at h
  | cons d ds ih =>
    intro n r h
    simp only [whitelistRulesAux, List.mem_cons] at h
    rcases h with rfl | rfl | h
    · exact ⟨rfl, rfl⟩
    · exact ⟨rfl, rfl⟩
    · exact ih _ _ h

theorem blacklistRulesAux_mem :
    ∀ (bl : List (List Char)) (n : Nat) (r : DNRRule), r ∈ blacklistRulesAux n bl →
      r.priority = 5 ∧ r.action = .block := by
  intro bl
  induction bl with
  | nil => intro n r h; simp [blacklistRulesAux] at h
  | cons d ds ih =>
    intro n r h
    simp only [blacklistRulesAux, List.mem_cons] at h
    rcases h with rfl | h
    · exact ⟨rfl, rfl⟩
    · exact ih _ _ h

/-! Lemmas about the cosmetic-rule lookup. -/

theorem selectorYield_eq_some {domain : List Char} {r : ParsedRule} {s : List Char} :
    selectorYield domain r = some s ↔
      ∃ doms, r = .elementHide doms s ∧ ruleApplies doms domain = true := by
  cases r with
  | elementHide doms sel =>
    simp only [selectorYield]
    split
    · rename_i h
      constructor
      · rintro hs
        injection hs with hs
        subst hs
        exact ⟨doms, rfl, h⟩
      · rintro ⟨doms', heq, _⟩
        injection heq with h1 h2
        subst h2
        rfl
    · rename_i h
      constructor
      · rintro hs; cases hs
      · rintro ⟨doms', heq, happ⟩
        injection heq with h1 h2
        subst h1
        exact absurd happ h
  | elementException doms sel =>
    simp [selectorYield]
  | scriptlet doms script =>
    simp [selectorYield]
  | networkBlock p o opts =>
    simp [selectorYield]
  | networkException p o opts =>
    simp [selectorYield]

theorem mem_collectSelectors {fls : List FilterListData} {domain s : List Char} :
    s ∈ collectSelectors fls domain ↔
      ∃ fl ∈ fls, ∃ r ∈ fl.rules, selectorYield domain r = some s := by
  simp [collectSelectors, List.mem_filterMap]

theorem selectors_filter_exceptions (domain : List Char) :
    ∀ rules : List ParsedRule,
      (rules.filter (fun r => !isElementException r)).filterMap (selectorYield domain) =
        rules.filterMap (selectorYield domain) := by
  intro rules
  induction rules with
  | nil => rfl
  | cons r rs ih =>
    by_cases hx : isElementException r = true
    · have hdrop : List.filter (fun r => !isElementException r) (r :: rs) =
          List.filter (fun r => !isElementException r) rs := by
        simp [List.filter_cons, hx]
      have hy : selectorYield domain r = none := by
        cases r <;> simp_all [isElementException, selectorYield]
      rw [hdrop, ih]
      simp [List.filterMap_cons, hy]
    · have hkeep : List.filter (fun r => !isElementException r) (r :: rs) =
          r :: List.filter (fun r => !isElementException r) rs := by
        simp [List.filter_cons, hx]
      rw [hkeep]
      simp only [List.filterMap_cons, ih]

theorem collectSelectors_drop_exceptions (fls : List FilterListData)
    (domain : List Char) :
    collectSelectors (fls.map dropElementExceptions) domain =
      collectSelectors fls domain := by
  induction fls with
  | nil => rfl
  | cons fl fls ih =>
    simp only [List.map_cons, collectSelectors, List.flatMap_cons]
    rw [show (dropElementExceptions fl).rules =
        fl.rules.filter (fun r => !isElementException r) from rfl]
    rw [selectors_filter_exceptions]
    simp only [collectSelectors] at ih
    rw [ih]

/-! The claim theorems. -/

/-- C1: the spec claims `||domain.com^` translates to a pattern that
matches `https://domain.com/x` and `https://a.domain.com/x`, rejecting
`https://notdomain.com/x` and `https://domain.com.evil.com/x`, the
anchoring substitutions for `||`, `|` and `^` being applied once, before
generic escaping of the remaining text. In the source the generic escaping
runs first and `replace(/\^/g, …)` then substitutes the bare `^` inside
the already-escaped `\^`, so the escape backslash survives in front of the
synthesized group: the emitted pattern ends in `\([^a-zA-Z0-9_.%-]|$)`,
whose `\(` is a literal parenthesis, leaving the final `)` unmatched — an
invalid pattern that the backend rejects and that matches none of the
claimed URLs. The second conjunct records that the output is not the
uncorrupted pattern the spec describes. -/
theorem claim_C1_ruleToRegex_corrupted :
    ruleToRegex "||domain.com^".toList =
      "^https?://([a-z0-9-]+\\.)*domain\\.com\\([^a-zA-Z0-9_.%-]|$)".toList ∧
    ruleToRegex "||domain.com^".toList ≠
      "^https?://([a-z0-9-]+\\.)*domain\\.com([^a-zA-Z0-9_.%-]|$)".toList := by
  decide

/-- C2 counterexample: a concrete compiled batch in which a
whitelist-domain allow rule carries priority 10 while a user-authored
allow exception carries priority 3 — user allow exceptions do not carry
the highest priority number, contrary to the claim. -/
theorem claim_C2_counterexample :
    ((whitelistRulesFor ["example.com".toList]).map DNRRule.priority = [10, 10]) ∧
    ((compileCustomToDNR { type := "allow".toList, pattern := "x".toList } 100000).map
        DNRRule.priority = some 3) ∧
    (3 : Nat) < 10 := by
  decide

/-- C2 (amended): the compiled priorities order as whitelist-domain allow
rules (10) > blacklist-domain block rules (5) > user-authored allow
exceptions (3) > user-authored block rules (2) > ordinary list-sourced
block rules (1). User allow exceptions still defeat user block rules and
every list-sourced block rule, but the whitelist and blacklist tiers sit
above the user-authored tiers, not below them as the claim orders. -/
theorem claim_C2_amended_priorities :
    (∀ wl r, r ∈ whitelistRulesFor wl → r.priority = 10 ∧ r.action = .allow) ∧
    (∀ bl r, r ∈ blacklistRulesFor bl → r.priority = 5 ∧ r.action = .block) ∧
    (∀ c i d, compileCustomToDNR c i = some d →
      (c.type = "block".toList ∧ d.priority = 2 ∧ d.action = .block) ∨
        (c.type = "allow".toList ∧ d.priority = 3 ∧ d.action = .allow)) ∧
    (∀ p o i d, compileToDNR p o i = some d → d.priority = 1 ∧ d.action = .block) ∧
    (1 : Nat) < 2 ∧ (2 : Nat) < 3 ∧ (3 : Nat) < 5 ∧ (5 : Nat) < 10 := by
  refine ⟨fun wl r h => whitelistRulesAux_mem wl _ r h,
    fun bl r h => blacklistRulesAux_mem bl _ r h,
    fun c i d h => (compileCustomToDNR_cases h).2,
    fun p o i d h => (compileToDNR_fields h).2,
    by omega, by omega, by omega, by omega⟩

/-- C3: every list-sourced rule compiled by `compileToDNR` has priority 1
and every custom allow rule compiled by `compileCustomToDNR` has priority
3, so whenever one of each matches the same URL the custom allow rule has
strictly greater priority and the highest-priority-wins resolution yields
Allow. -/
theorem claim_C3_custom_allow_beats_list_block
    (p : List Char) (o : RuleOptions) (i₁ : Nat) (c : CustomRule) (i₂ : Nat)
    (d₁ d₂ : DNRRule) (h₁ : compileToDNR p o i₁ = some d₁)
    (hc : c.type = "allow".toList) (h₂ : compileCustomToDNR c i₂ = some d₂) :
    d₁.priority < d₂.priority ∧ resolveAction [d₁, d₂] = some ActionType.allow := by
  obtain ⟨_, hp₁, ha₁⟩ := compileToDNR_fields h₁
  rw [compileCustomToDNR_allow hc] at h₂
  injection h₂ with h₂
  subst h₂
  refine ⟨by rw [hp₁]; simp, ?_⟩
  simp [resolveAction, bestRule, hp₁]

/-- C3 witness: the concrete compiled pair at ids 100000 and 100001. -/
theorem claim_C3_witness :
    sampleListDNR.priority < sampleAllowDNR.priority ∧
    resolveAction [sampleListDNR, sampleAllowDNR] = some ActionType.allow :=
  claim_C3_custom_allow_beats_list_block "p".toList {} 100000
    { type := "allow".toList, pattern := "q".toList } 100001
    sampleListDNR sampleAllowDNR (by decide) (by decide) (by decide)

/-- C4: the domain matcher. An empty domain list applies globally; the four
spec cases hold; matching an entry is equality or subdomain suffix on a dot
boundary and never a bare substring (`notexample.com` matches neither as a
domain nor as an entry); and a matching exclude defeats any matching
include. -/
theorem claim_C4_domain_matcher :
    (∀ d, applies [] [] d = true) ∧
    applies ["example.com".toList] [] "sub.example.com".toList = true ∧
    applies ["example.com".toList] [] "notexample.com".toList = false ∧
    applies [] ["example.com".toList] "example.com".toList = false ∧
    applies [] ["example.com".toList] "other.com".toList = true ∧
    domainMatches "sub.example.com".toList "example.com".toList = true ∧
    domainMatches "notexample.com".toList "example.com".toList = false ∧
    (∀ includes excludes domain e, e ∈ excludes → domainMatches domain e = true →
      applies includes excludes domain = false) := by
  refine ⟨fun d => rfl, by decide, by decide, by decide, by decide, by decide,
    by decide, ?_⟩
  intro includes excludes domain e he hm
  unfold applies
  refine ruleApplies_excluded ('~' :: e) ?_ ?_ ?_
  · exact List.mem_append_right _ (List.mem_map_of_mem _ he)
  · simp [List.isPrefixOf]
  · exact hm

/-- C5 counterexample: one cached list of category `ads` with one
network-block rule compiles to a single rule with id 100000, while the
declared `ads` band is `[1, 9999)` — compiled ids are not drawn from the
source category's declared range. -/
theorem claim_C5_counterexample :
    ((compileRules [⟨some "ads".toList, [.networkBlock "x".toList "x".toList {}]⟩] []).map
        DNRRule.id = [100000]) ∧
    findRange ruleRanges "ads".toList = some ⟨1, 9999⟩ ∧
    ¬inRange ⟨1, 9999⟩ 100000 := by
  decide

/-- C5 (amended): within one compiled batch ids are strictly increasing in
batch order (so no two compiled rules share an id), but they come from the
single counter started at 100000 — the custom band's floor — regardless of
each rule's source category, so list-sourced rules do not receive ids
inside their category's declared band; the declared bands themselves are
pairwise disjoint. -/
theorem claim_C5_amended_ids :
    (∀ fls cs, ((compileRules fls cs).map DNRRule.id).Pairwise (· < ·)) ∧
    (∀ fls cs, ∀ r ∈ compileRules fls cs, 100000 ≤ r.id) ∧
    ruleRanges.Pairwise (fun p q => p.2.stop ≤ q.2.start) := by
  have hmain : ∀ (fls : List FilterListData) (cs : List CustomRule),
      ((compileRules fls cs).map DNRRule.id).Pairwise (· < ·) ∧
        ∀ r ∈ compileRules fls cs, 100000 ≤ r.id := by
    intro fls cs
    have hinit1 : ((([] : List DNRRule)).map DNRRule.id).Pairwise (· < ·) := by simp
    have hinit2 : ∀ r ∈ ([] : List DNRRule), r.id < (100000 : Nat) := by simp
    obtain ⟨p1, p2, p3, p4⟩ := compileAllLists_inv fls ⟨100000, []⟩ hinit1 hinit2
    obtain ⟨q1, q2, q3, q4⟩ := compileCustomRules_inv cs _ p1 p2
    refine ⟨q1, ?_⟩
    intro r hr
    rcases q4 r hr with h | h
    · rcases p4 r h with h' | h'
      · exact absurd h' (List.not_mem_nil r)
      · exact h'
    · exact le_trans p3 h
  exact ⟨fun fls cs => (hmain fls cs).1, fun fls cs r hr => (hmain fls cs).2 r hr,
    by decide⟩

theorem compileRules_one_replicate (n : Nat) (p o : List Char)
    (opts : RuleOptions) (cat : Option (List Char)) :
    (compileRules [⟨cat, List.replicate n (.networkBlock p o opts)⟩] []).length = n := by
  simp only [compileRules]
  have h2 : compileAllLists ⟨100000, []⟩
      [⟨cat, List.replicate n (.networkBlock p o opts)⟩] =
      compileListRules ⟨100000, []⟩ (List.replicate n (.networkBlock p o opts)) := by
    simp only [compileAllLists]
    split
    · rfl
    · rfl
  rw [h2, show ∀ st : CompState, compileCustomRules st [] = st from fun st => rfl,
    compileListRules_replicate]
  simp

/-- C6 counterexample: a single list carrying 30001 network-block rules
compiles to 30001 list-sourced rules in one batch — the 30000 check sits
between lists, not inside the per-rule loop, so the number of list-sourced
compiled rules exceeds the ceiling. -/
theorem claim_C6_counterexample :
    (compileRules
        [⟨some "ads".toList,
          List.replicate 30001 (.networkBlock "x".toList "x".toList {})⟩] []).length =
      30001 ∧
    ¬((30001 : Nat) ≤ 30000) := by
  constructor
  · exact compileRules_one_replicate 30001 "x".toList "x".toList {} (some "ads".toList)
  · omega

/-- C6 (amended): `compileRules` checks the 30000 ceiling only between
lists — once a processed list brings the batch to 30000 rules or more, all
remaining lists are skipped, but the per-rule loop never checks, so a
single list can push the batch past the ceiling (the counterexample
reaches 30001). Custom rules are exempt and always compiled: the batch
gains exactly one rule per custom rule of type `block` or `allow`,
whatever the list phase produced. -/
theorem claim_C6_amended_ceiling :
    (∀ (l : FilterListData) (ls : List FilterListData) (st : CompState),
      30000 ≤ (compileListRules st l.rules).rules.length →
      compileAllLists st (l :: ls) = compileListRules st l.rules) ∧
    (∀ (cs : List CustomRule) (st : CompState),
      (compileCustomRules st cs).rules.length =
        st.rules.length +
          cs.countP (fun c =>
            decide (c.type = "block".toList) || decide (c.type = "allow".toList))) ∧
    (∀ fls cs, (compileRules fls cs).length =
      (compileAllLists ⟨100000, []⟩ fls).rules.length +
        cs.countP (fun c =>
          decide (c.type = "block".toList) || decide (c.type = "allow".toList))) := by
  refine ⟨?_, compileCustomRules_length, ?_⟩
  · intro l ls st h
    show (if 30000 ≤ (compileListRules st l.rules).rules.length then
        compileListRules st l.rules
      else compileAllLists (compileListRules st l.rules) ls) = _
    rw [if_pos h]
  · intro fls cs
    exact compileCustomRules_length cs _

/-- C7 counterexample: the line `#@#` cannot be classified as any rule and
yields no `ParsedRule`; the whole parse output equals that of the empty
input, so the parser — whose only output is the rule list — maintains no
diagnostic counter of parse failures, contrary to the claim. -/
theorem claim_C7_counterexample :
    adblockLineRule "#@#".toList = none ∧
    parseAdblockList "#@#".toList = parseAdblockList "".toList := by
  decide

/-- C7 (amended): the parser is a total function (never raises) for both
formats; a line that cannot be classified yields no `ParsedRule` and
leaves the output unchanged wherever it occurs; the output never has more
rules than there are input lines. Contrary to the claim, no diagnostic
counter records the skipped lines — the rule list is the parser's entire
output (see the counterexample). -/
theorem claim_C7_amended_skip_semantics :
    (∀ pre post junk, adblockLineRule junk = none →
      parseAdblockLines (pre ++ junk :: post) = parseAdblockLines (pre ++ post)) ∧
    (∀ lines, (parseAdblockLines lines).length ≤ lines.length) ∧
    (∀ pre post junk, hostsLineRule junk = none →
      parseHostsLines (pre ++ junk :: post) = parseHostsLines (pre ++ post)) ∧
    (∀ lines, (parseHostsLines lines).length ≤ lines.length) := by
  refine ⟨?_, ?_, ?_, ?_⟩
  · intro pre post junk h
    simp [parseAdblockLines, List.filterMap_append, List.filterMap_cons, h]
  · intro lines
    exact List.length_filterMap_le _ _
  · intro pre post junk h
    simp [parseHostsLines, List.filterMap_append, List.filterMap_cons, h]
  · intro lines
    exact List.length_filterMap_le _ _

/-- C8: the hosts scenario. Parsing the two-line input yields exactly one
network-block rule for `malware.test` and none for `localhost`; compiling
it yields exactly one Block rule carrying that pattern; the pattern is the
rendering of the parse tree `hostsAst "malware.test"`, which matches
`https://malware.test/`, sample subdomain URLs over both schemes, rejects
`https://notmalware.test/`, and matches every URL
`https://l₁.….lₙ.malware.test/…` for labels over `[a-z0-9-]` — all of the
domain's subdomains. In general, every hosts line `0.0.0.0 <domain>` or
`127.0.0.1 <domain>` yields exactly one network-block rule anchored to the
domain and its subdomains via `hostsPatternFor`, and an inline `#comment`
suffix is stripped (last conjunct). -/
theorem claim_C8_hosts_scenario :
    parseHostsFile "0.0.0.0 malware.test\n127.0.0.1 localhost".toList =
      [.networkBlock (hostsPatternFor "malware.test".toList)
        "0.0.0.0 malware.test".toList {}] ∧
    compileRules
        [⟨some "unified".toList,
          parseHostsFile "0.0.0.0 malware.test\n127.0.0.1 localhost".toList⟩] [] =
      [{ id := 100000, priority := 1, action := .block,
         condition := { regexFilter := some (hostsPatternFor "malware.test".toList),
                        resourceTypes := some listDefaultResourceTypes } }] ∧
    ('^' :: render (hostsAst "malware.test".toList) =
      hostsPatternFor "malware.test".toList) ∧
    accepts (hostsAst "malware.test".toList) "https://malware.test/".toList = true ∧
    accepts (hostsAst "malware.test".toList) "https://a.malware.test/x".toList = true ∧
    accepts (hostsAst "malware.test".toList)
      "http://sub.a1-b.malware.test".toList = true ∧
    accepts (hostsAst "malware.test".toList)
      "https://notmalware.test/".toList = false ∧
    (∀ labels rest, labelsValid labels →
      accepts (hostsAst "malware.test".toList)
        ("https://".toList ++
          (flatLabels labels ++ ("malware.test".toList ++ '/' :: rest))) = true) ∧
    (∀ c₀ d₀, c₀ :: d₀ ≠ "localhost".toList →
      (∀ c ∈ c₀ :: d₀, isJsWs c = false ∧ c ≠ '#') →
      hostsLineRule ("0.0.0.0 ".toList ++ c₀ :: d₀) =
        some (.networkBlock (hostsPatternFor (c₀ :: d₀))
          ("0.0.0.0 ".toList ++ c₀ :: d₀) {}) ∧
      hostsLineRule ("127.0.0.1 ".toList ++ c₀ :: d₀) =
        some (.networkBlock (hostsPatternFor (c₀ :: d₀))
          ("127.0.0.1 ".toList ++ c₀ :: d₀) {})) ∧
    parseHostsLines ["127.0.0.1 ads.example.com # inline comment".toList] =
      [.networkBlock (hostsPatternFor "ads.example.com".toList)
        "127.0.0.1 ads.example.com # inline comment".toList {}] := by
  refine ⟨by decide, by decide, by decide, by decide, by decide, by decide,
    by decide, ?_, ?_, by decide⟩
  · intro labels rest hv
    exact (hostsAst_accepts "malware.test".toList labels rest hv).1
  · intro c₀ d₀ hloc hchar
    have h0 : ("0.0.0.0 ".toList : List Char) = "0.0.0.0".toList ++ [' '] := by decide
    have h1 : ("127.0.0.1 ".toList : List Char) = "127.0.0.1".toList ++ [' '] := by
      decide
    rw [h0, h1]
    exact ⟨hostsLineRule_entry c₀ d₀ hloc hchar _ (Or.inl rfl),
      hostsLineRule_entry c₀ d₀ hloc hchar _ (Or.inr rfl)⟩

/-- C9: the cosmetic lookup is duplicate-free and contains exactly the
selectors of the parsed `element-hide` rules whose domain lists apply to
the queried domain; removing every `element-exception` record from the
cached lists leaves the result unchanged — exception rules are never
consulted, so no exception ever removes a selector. -/
theorem claim_C9_element_hiding_lookup :
    ∀ (fls : List FilterListData) (domain : List Char),
      (getElementHidingRules fls domain).Nodup ∧
      (∀ s, s ∈ getElementHidingRules fls domain ↔
        ∃ fl ∈ fls, ∃ doms, ParsedRule.elementHide doms s ∈ fl.rules ∧
          ruleApplies doms domain = true) ∧
      getElementHidingRules (fls.map dropElementExceptions) domain =
        getElementHidingRules fls domain := by
  intro fls domain
  refine ⟨nodup_dedupFirst _, ?_, ?_⟩
  · intro s
    rw [getElementHidingRules, mem_dedupFirst, mem_collectSelectors]
    constructor
    · rintro ⟨fl, hfl, r, hr, hy⟩
      obtain ⟨doms, rfl, happ⟩ := selectorYield_eq_some.mp hy
      exact ⟨fl, hfl, doms, hr, happ⟩
    · rintro ⟨fl, hfl, doms, hr, happ⟩
      exact ⟨fl, hfl, _, hr, selectorYield_eq_some.mpr ⟨doms, rfl, happ⟩⟩
  · rw [getElementHidingRules, getElementHidingRules,
      collectSelectors_drop_exceptions]

/-- C9 witness: the lookup on a concrete pair of lists, one applying
element-hide rule, one exception record, one inapplicable rule. -/
theorem claim_C9_witness :
    (getElementHidingRules
      [⟨some "ads".toList,
        [.elementHide [] ".banner".toList,
         .elementException [] ".banner".toList,
         .elementHide ["other.com".toList] ".x".toList]⟩]
      "example.com".toList).Nodup :=
  (claim_C9_element_hiding_lookup
    [⟨some "ads".toList,
      [.elementHide [] ".banner".toList,
       .elementException [] ".banner".toList,
       .elementHide ["other.com".toList] ".x".toList]⟩]
    "example.com".toList).1

theorem updateFilterList_sources (fetched : Option (List Char))
    (st : EngineState) (id : List Char) :
    (updateFilterList fetched st id).sources = st.sources := by
  unfold updateFilterList
  split
  · rfl
  · split
    · rfl
    · rfl
  · split
    · rfl
    · rfl

/-- C10 counterexample: `toString` is not a key of the configured sources,
yet `this.sources['toString']` is truthy — the inherited
`Object.prototype.toString` — so the toggle is not the claimed no-op:
`compileRules` runs (the flag is true) and the recompilation clobbers the
compiled batch. -/
theorem claim_C10_counterexample :
    findSource sampleEngineStateLoaded.sources "toString".toList = none ∧
    toggleFilterList none sampleEngineStateLoaded "toString".toList false ≠
      (sampleEngineStateLoaded, false) ∧
    (toggleFilterList none sampleEngineStateLoaded "toString".toList false).2 =
      true ∧
    (toggleFilterList none sampleEngineStateLoaded "toString".toList
        false).1.compiledRules = [] ∧
    sampleEngineStateLoaded.compiledRules = [sampleListDNR] := by
  decide

/-- C10 (amended): toggling by an id that is neither an own key of the
configured sources nor one of the property names every plain object
inherits from `Object.prototype` is a complete no-op — the state is
unchanged and `compileRules` is not invoked (the flag is false), whatever
the network fetch would have answered. For an id that only hits an
inherited member the guard `this.sources[id]` is truthy, so the body runs
after all: the `enabled` write lands on the shared prototype member
outside the engine's own fields (`sources` is unchanged), but
`compileRules` runs and the flag is true. The last conjunct pins the
inherited case to the concrete `protoNames` list whenever the own keys
miss. -/
theorem claim_C10_amended_toggle :
    (∀ (fetched : Option (List Char)) (st : EngineState) (id : List Char)
        (enabled : Bool), sourceProp st.sources id = SourceProp.undef →
      toggleFilterList fetched st id enabled = (st, false)) ∧
    (∀ (fetched : Option (List Char)) (st : EngineState) (id : List Char)
        (enabled : Bool), sourceProp st.sources id = SourceProp.inherited →
      (toggleFilterList fetched st id enabled).2 = true ∧
      (toggleFilterList fetched st id enabled).1.sources = st.sources) ∧
    (∀ (st : EngineState) (id : List Char), findSource st.sources id = none →
      (sourceProp st.sources id = SourceProp.inherited ↔ id ∈ protoNames)) := by
  refine ⟨?_, ?_, ?_⟩
  · intro fetched st id enabled h
    unfold toggleFilterList
    rw [h]
  · intro fetched st id enabled h
    unfold toggleFilterList
    rw [h]
    refine ⟨rfl, ?_⟩
    dsimp only
    split
    · exact updateFilterList_sources fetched st id
    · rfl
  · intro st id h
    unfold sourceProp
    rw [h]
    by_cases hmem : id ∈ protoNames
    · rw [if_pos (List.any_eq_true.mpr ⟨id, hmem, by simp⟩)]
      simp [hmem]
    · have hcond : protoNames.any (fun n => decide (n = id)) = false := by
        rw [List.any_eq_false]
        intro n hn
        simp only [decide_eq_true_eq]
        intro heq
        exact hmem (heq ▸ hn)
      rw [if_neg (by simp [hcond])]
      simp [hmem]

end BlockForge
